import Mathlib

/-!
Verification of the manifest-resolution pipeline of
`platforms/platmgr/tools/rtl_src_config.py`.

The Python source is shallowly embedded: strings are Lean `String`s,
`os.path` functions are modelled character-exactly on `List Char`
(POSIX rules, as implemented by CPython's `posixpath`), the process
environment is an explicit association list, the filesystem and the two
external collaborator commands are fields of an explicit `World`
record, and fatal `errorExit` paths are `Except` errors.
-/

namespace RtlSrcConfig

/-- Python `str.strip` whitespace set (ASCII). -/
def isPyWs (c : Char) : Bool :=
  c == ' ' || c == '\t' || c == '\n' || c == '\r' || c == '\x0b' || c == '\x0c'

/-- Python `str.strip()` on a character list. -/
def pyStripL (cs : List Char) : List Char :=
  ((cs.dropWhile isPyWs).reverse.dropWhile isPyWs).reverse

/-- Python `str.strip()`. -/
def pyStrip (s : String) : String := String.mk (pyStripL s.toList)

/-- Python `str.split(sep)` on character lists (single-char separator). -/
def splitCh (sep : Char) : List Char → List (List Char)
  | [] => [[]]
  | c :: rest =>
    if c = sep then [] :: splitCh sep rest
    else
      match splitCh sep rest with
      | [] => [[c]]
      | s :: ss => (c :: s) :: ss

/-- Python `sep.join(parts)` on character lists. -/
def interCh (sep : Char) : List (List Char) → List Char
  | [] => []
  | [x] => x
  | x :: xs => x ++ sep :: interCh sep xs

/-- Boolean list-prefix test (`str.startswith`). -/
def isPfx : List Char → List Char → Bool
  | [], _ => true
  | _ :: _, [] => false
  | p :: ps, c :: cs => p == c && isPfx ps cs

/-- Python substring containment (`pat in s`). -/
def containsL (cs pat : List Char) : Bool :=
  isPfx pat cs ||
    match cs with
    | [] => false
    | _ :: rest => containsL rest pat

/-- Python `pat in s` on strings. -/
def strContains (s pat : String) : Bool := containsL s.toList pat.toList

/-- Python `s[:len(pat)] == pat` / `str.startswith`. -/
def strStarts (s pat : String) : Bool := isPfx pat.toList s.toList

/-- Python slicing `s[n:]`. -/
def strDropN (s : String) (n : Nat) : String := String.mk (s.toList.drop n)

/-- Python `s.split(sep, 1)` when the separator occurs: the pieces before and
after the first occurrence; `none` when the separator is absent. -/
def splitFirst (sep : Char) : List Char → Option (List Char × List Char)
  | [] => none
  | c :: rest =>
    if c = sep then some ([], rest)
    else
      match splitFirst sep rest with
      | none => none
      | some (a, b) => some (c :: a, b)

/-- `s.split(sep, 1)` on strings (`none` = separator absent = `ValueError`
path of the source's `try`). -/
def strSplitFirst (sep : Char) (s : String) : Option (String × String) :=
  match splitFirst sep s.toList with
  | none => none
  | some (a, b) => some (String.mk a, String.mk b)

/-- Python `str.lower` (ASCII range, which covers every table key). -/
def pyLower (s : String) : String := String.mk (s.toList.map Char.toLower)

/-- Python file iteration + the parser's per-line strip: file content split
into lines. -/
def pyLines (content : String) : List String :=
  (splitCh '\n' content.toList).map String.mk

/-- Python `str.rstrip(sep)` for one character. -/
def rstripCh (sep : Char) (cs : List Char) : List Char :=
  (cs.reverse.dropWhile (· == sep)).reverse

/-! ## posixpath models -/

/-- `posixpath.isabs`. -/
def pyIsAbsL (cs : List Char) : Bool := isPfx ['/'] cs

/-- The component-compression loop of `posixpath.normpath`; `ab` tells
whether the path is absolute (`initial_slashes` truthy). -/
def normLoop (ab : Bool) : List (List Char) → List (List Char) → List (List Char)
  | acc, [] => acc
  | acc, comp :: rest =>
    if comp = [] ∨ comp = ['.'] then normLoop ab acc rest
    else if comp ≠ ['.', '.'] ∨ (ab = false ∧ acc = []) ∨ acc.getLast? = some ['.', '.'] then
      normLoop ab (acc ++ [comp]) rest
    else if acc ≠ [] then normLoop ab acc.dropLast rest
    else normLoop ab acc rest

/-- `posixpath.normpath` on character lists. -/
def pyNormpathL (cs : List Char) : List Char :=
  if cs = [] then ['.']
  else
    let slashes : Nat :=
      if pyIsAbsL cs then
        (if isPfx ['/', '/'] cs && !isPfx ['/', '/', '/'] cs then 2 else 1)
      else 0
    let ncs := normLoop (slashes ≠ 0) [] (splitCh '/' cs)
    let r := List.replicate slashes '/' ++ interCh '/' ncs
    if r = [] then ['.'] else r

/-- `posixpath.normpath`. -/
def pyNormpath (s : String) : String := String.mk (pyNormpathL s.toList)

/-- Two-argument `posixpath.join` on character lists. -/
def pyJoinL (a b : List Char) : List Char :=
  if pyIsAbsL b then b
  else if a = [] ∨ a.getLast? = some '/' then a ++ b
  else a ++ '/' :: b

/-- Two-argument `posixpath.join`. -/
def pyJoin (a b : String) : String := String.mk (pyJoinL a.toList b.toList)

/-- `posixpath.abspath`, with the process working directory explicit. -/
def pyAbspathL (cwd cs : List Char) : List Char :=
  pyNormpathL (if pyIsAbsL cs then cs else pyJoinL cwd cs)

/-- `posixpath.abspath` on strings. -/
def pyAbspath (cwd s : String) : String := String.mk (pyAbspathL cwd.toList s.toList)

/-- `posixpath.dirname` on character lists. -/
def pyDirnameL (cs : List Char) : List Char :=
  let head := (cs.reverse.dropWhile (fun c => !(c == '/'))).reverse
  if !head.isEmpty && !(head.all (· == '/')) then rstripCh '/' head else head

/-- `posixpath.dirname`. -/
def pyDirname (s : String) : String := String.mk (pyDirnameL s.toList)

/-- Length of the longest common prefix of two component lists
(`genericpath.commonprefix` on a pair of lists). -/
def commonPrefixLen : List (List Char) → List (List Char) → Nat
  | a :: as, b :: bs => if a = b then commonPrefixLen as bs + 1 else 0
  | _, _ => 0

/-- The nonempty components of `abspath(cs)`. -/
def absCompsL (cwd cs : List Char) : List (List Char) :=
  (splitCh '/' (pyAbspathL cwd cs)).filter (· ≠ [])

/-- `posixpath.relpath` on character lists (working directory explicit). -/
def pyRelpathL (cwd p start : List Char) : List Char :=
  let pl := absCompsL cwd p
  let sl := absCompsL cwd start
  let i := commonPrefixLen sl pl
  let rel := List.replicate (sl.length - i) ['.', '.'] ++ pl.drop i
  if rel = [] then ['.'] else interCh '/' rel

/-- `posixpath.relpath`. -/
def pyRelpath (cwd p start : String) : String :=
  String.mk (pyRelpathL cwd.toList p.toList start.toList)

/-- The extension part of `posixpath.splitext`: from the last dot of the
last path component, provided a non-dot character precedes it in that
component. -/
def pySplitextExtL (cs : List Char) : List Char :=
  let base := (cs.reverse.takeWhile (fun c => !(c == '/'))).reverse
  let rb := base.reverse
  let sufR := rb.takeWhile (fun c => !(c == '.'))
  if sufR.length = rb.length then []
  else
    let pre := (rb.drop (sufR.length + 1)).reverse
    if pre.any (fun c => !(c == '.')) then '.' :: sufR.reverse else []

/-- The lowercased extension used by `validateTag` and `lookupTag`:
`os.path.splitext(filename)[1].lower()`. -/
def extOf (filename : String) : String :=
  pyLower (String.mk (pySplitextExtL filename.toList))

/-! ## Extension → Quartus-tag tables (`rtl_src_config.py` lines 24-75) -/

/-- Suffix to Quartus tag (full synthesis table). -/
def quartus_tag_map : List (String × String) :=
  [(".v",    "VERILOG_FILE"),
   (".sv",   "SYSTEMVERILOG_FILE"),
   (".vh",   "SYSTEMVERILOG_FILE"),
   (".svh",  "SYSTEMVERILOG_FILE"),
   (".vhd",  "VHDL_FILE"),
   (".vhdl", "VHDL_FILE"),
   (".sdc",  "SDC_FILE"),
   (".qsys", "QSYS_FILE"),
   (".ip",   "IP_FILE"),
   (".qip",  "QIP_FILE"),
   (".json", "MISC_FILE"),
   (".tcl",  "SOURCE_TCL_SCRIPT_FILE"),
   (".stp",  "USE_SIGNALTAP_FILE"),
   (".hex",  "MIF_FILE"),
   (".mif",  "MIF_FILE")]

/-- QSYS-only tags. -/
def qsys_tag_map : List (String × String) :=
  [(".qsys", "QSYS_FILE"), (".qip", "QIP_FILE"), (".ip", "IP_FILE")]

/-- TCL-only tags. -/
def tcl_tag_map : List (String × String) :=
  [(".tcl", "SOURCE_TCL_SCRIPT_FILE")]

/-- QSYS ipx tag. -/
def qsys_ipx_tag_map : List (String × String) :=
  [(".ipx", "IPX_FILE")]

/-- JSON-only tags. -/
def json_tag_map : List (String × String) :=
  [(".json", "MISC_FILE")]

/-- Suffixes to emit for Verilog simulation targets. -/
def sim_vlog_tag_map : List (String × String) :=
  [(".v",   "VERILOG_FILE"),
   (".sv",  "SYSTEMVERILOG_FILE"),
   (".vh",  "SYSTEMVERILOG_FILE"),
   (".svh", "SYSTEMVERILOG_FILE"),
   (".json", "MISC_FILE")]

/-- Suffixes to emit for VHDL simulation targets. -/
def sim_vhdl_tag_map : List (String × String) :=
  [(".vhd", "VHDL_FILE"), (".vhdl", "VHDL_FILE")]

/-- `validateTag` (lines 78-90): `none` on success, the `errorExit`
diagnostic when the lowercased extension is in none of the tables. -/
def validateTag (filename : String) : Option String :=
  let ext := extOf filename
  if (quartus_tag_map.lookup ext).isNone &&
      (qsys_tag_map.lookup ext).isNone &&
      (tcl_tag_map.lookup ext).isNone &&
      (qsys_ipx_tag_map.lookup ext).isNone &&
      (json_tag_map.lookup ext).isNone &&
      (sim_vlog_tag_map.lookup ext).isNone &&
      (sim_vhdl_tag_map.lookup ext).isNone then
    some ("unrecognized file extension \x27" ++ ext ++ "\x27 (" ++ filename ++ ")")
  else none

/-- `lookupTag` (lines 93-100). -/
def lookupTag (filename : String) (db : List (String × String)) : Option String :=
  db.lookup (extOf filename)

/-! ## Command-line options and the external world -/

/-- The option fields read by the core functions (argparse + the
`--sim`/`--sim-vlog`/`--sim-vhdl` normalization done in `main`). -/
structure Opts where
  sim : Bool := false
  sim_vlog : Bool := false
  sim_vhdl : Bool := false
  qsf : Bool := false
  qsys : Bool := false
  tcl : Bool := false
  ipx : Bool := false
  json : Bool := false
  abs : Bool := false
  quiet : Bool := false
  lib : Option String := none
deriving DecidableEq

/-- The process-external state the script consults: the filesystem
(file contents, directory test, existence test), the working directory,
and the stdout/exit status of the two collaborator commands
(`afu_platform_info --key=fpga-family ...` and `quartus_sh --version`). -/
structure World where
  files : String → Option String
  isdir : String → Bool
  pathExists : String → Bool
  cwd : String
  famStdout : List String
  famExit : Nat
  qvStdout : List String
  qvExit : Nat

/-- Mutable process state: `os.environ` plus invocation counters for the
two external commands (used to state the memoization claims). -/
structure PState where
  env : List (String × String)
  famCalls : Nat := 0
  qvCalls : Nat := 0
deriving DecidableEq

/-- `os.environ[k]` lookup (`none` = key absent). -/
def envGet (e : List (String × String)) (k : String) : Option String := e.lookup k

/-- `os.environ[k] = v` (newest binding shadows older ones). -/
def envSet (e : List (String × String)) (k v : String) : List (String × String) :=
  (k, v) :: e

/-! ## `emitCfg` (lines 106-197) -/

/-- `file_type_filter = opts.qsys or opts.ipx or opts.json or opts.tcl`. -/
def fileTypeFilter (o : Opts) : Bool := o.qsys || o.ipx || o.json || o.tcl

/-- The `rel_prefix` variable: `"$\x7bTHIS_DIR\x7d/"` exactly when no
file-type filter is active and neither `--sim*` nor `--abs` was given. -/
def relPfx (o : Opts) : String :=
  if !fileTypeFilter o && !o.sim && !o.abs then "$\x7bTHIS_DIR\x7d/" else ""

/-- Phase-1 output of `emitCfg`: the `THIS_DIR` preamble, then every
`+define+` entry, then every `+incdir+` entry (lines 110-137). -/
def emitPhase1 (o : Opts) (cfg : List String) : List String :=
  if fileTypeFilter o then []
  else
    (if !o.sim && !o.abs then ["set THIS_DIR [file dirname [info script]]\n"] else []) ++
    cfg.filterMap (fun c =>
      if strStarts c "+define+" then
        (if o.sim_vlog then some c
         else if o.sim_vhdl then none
         else some ("set_global_assignment -name VERILOG_MACRO \"" ++ strDropN c 8 ++ "\""))
      else none) ++
    cfg.filterMap (fun c =>
      if strStarts c "+incdir+" then
        (if o.sim_vlog then some c
         else if o.sim_vhdl then none
         else some ("set_global_assignment -name SEARCH_PATH \"" ++ relPfx o ++ strDropN c 8 ++ "\""))
      else none)

/-- The final `else` branch of the phase-2 loop (lines 169-197): bare
source files, validated then dispatched on the active mode. -/
def emitSource (o : Opts) (c : String) : List String × Option String :=
  match validateTag c with
  | some err => ([], some err)
  | none =>
    let tag := lookupTag c quartus_tag_map
    if o.sim_vlog then (if (lookupTag c sim_vlog_tag_map).isSome then [c] else [], none)
    else if o.sim_vhdl then (if (lookupTag c sim_vhdl_tag_map).isSome then [c] else [], none)
    else if o.json then (if (lookupTag c json_tag_map).isSome then [c] else [], none)
    else if o.qsys then (if (lookupTag c qsys_tag_map).isSome then [c] else [], none)
    else if o.ipx then (if (lookupTag c qsys_ipx_tag_map).isSome then [c] else [], none)
    else if o.tcl then (if (lookupTag c tcl_tag_map).isSome then [c] else [], none)
    else
      match tag with
      | some t =>
        (if t ≠ "SOURCE_TCL_SCRIPT_FILE" then
          ["set_global_assignment -name " ++ t ++ " \"" ++ relPfx o ++ c ++ "\""]
         else [], none)
      | none => ([], none)

/-- One iteration of the phase-2 loop of `emitCfg` (lines 140-197):
the printed lines for entry `c` and, for the bare-source branch, the
`validateTag` fatal error if any. -/
def emitEntry (o : Opts) (c : String) : List String × Option String :=
  if strStarts c "+" then ([], none)
  else
    match strSplitFirst ':' c with
    | some (cmd, value) =>
      if cmd = "SI" ∨ cmd = "SI_VLOG" then
        (if (lookupTag value tcl_tag_map).isSome && (o.sim_vlog || o.tcl) then ([value], none)
         else if o.sim_vlog then (["-F " ++ value], none)
         else ([], none))
      else if cmd = "SI_VHDL" then
        (if (lookupTag value tcl_tag_map).isSome && (o.sim_vhdl || o.tcl) then ([value], none)
         else if o.sim_vhdl then (["-F " ++ value], none)
         else ([], none))
      else if cmd = "QI" then
        (if !o.sim && !fileTypeFilter o then
          (["source \"" ++ relPfx o ++ value ++ "\""], none)
         else ([], none))
      else emitSource o c
    | none => emitSource o c

/-- The phase-2 loop: entries in order, stopping at the first fatal
validation error (which terminates the process in the source). -/
def emitPhase2 (o : Opts) : List String → List String × Option String
  | [] => ([], none)
  | c :: rest =>
    match emitEntry o c with
    | (ls, some e) => (ls, some e)
    | (ls, none) =>
      let (ls', e) := emitPhase2 o rest
      (ls ++ ls', e)

/-- `emitCfg` (lines 106-197): every line printed, in order, and the
fatal-error message if the run aborts. -/
def emitCfg (o : Opts) (cfg : List String) : List String × Option String :=
  let (ls, e) := emitPhase2 o cfg
  (emitPhase1 o cfg ++ ls, e)

/-! ## `fixRelPath` (lines 204-231) -/

/-- `fixRelPath`: detect the directive prefix of entry `c`, normalize the
embedded path relative to `tgt_dir` (absolute when `--abs`), re-attach
the prefix; a bare path naming a directory receives `+incdir+`. -/
def fixRelPath (o : Opts) (isdir : String → Bool) (cwd : String)
    (c config_dir tgt_dir : String) : String :=
  if c.length = 0 then c
  else if strStarts c "+define+" then c
  else
    let pc : String × String :=
      if strStarts c "+incdir+" then ("+incdir+", strDropN c 8)
      else
        match strSplitFirst ':' c with
        | none => (if isdir (pyJoin config_dir c) then "+incdir+" else "", c)
        | some (hd, tl) => (hd ++ ":", tl)
    let p := pyRelpath cwd (pyJoin config_dir pc.2) tgt_dir
    let p := if o.abs then pyAbspath cwd p else p
    pc.1 ++ p

/-! ## `os.path.expandvars` (used at line 263) -/

/-- ASCII word character of the `re` pattern used by
`posixpath.expandvars`. -/
def isWordChar (c : Char) : Bool := c.isAlphanum || c == '_'

/-- The scanning loop of `posixpath.expandvars`: substitute `$NAME` and
`$\x7bNAME\x7d` for defined variables, leave undefined or malformed
references in place, never rescan substituted values.  The `Nat`
argument is a step bound that keeps the recursion structural; every
recursive call moves to a proper suffix of the input, so a bound equal
to the input length is never exhausted. -/
def expandGo (e : List (String × String)) : Nat → List Char → List Char
  | 0, cs => cs
  | _ + 1, [] => []
  | fuel + 1, c :: rest =>
    if c = '$' then
      match rest with
      | '{' :: rest2 =>
        let name := rest2.takeWhile (fun ch => !(ch == '}'))
        if name.length = rest2.length then '$' :: '{' :: expandGo e fuel rest2
        else
          let after := rest2.drop (name.length + 1)
          match envGet e (String.mk name) with
          | some v => v.toList ++ expandGo e fuel after
          | none => '$' :: '{' :: (name ++ '}' :: expandGo e fuel after)
      | rest' =>
        let name := rest'.takeWhile isWordChar
        if name.isEmpty then '$' :: expandGo e fuel rest'
        else
          match envGet e (String.mk name) with
          | some v => v.toList ++ expandGo e fuel (rest'.drop name.length)
          | none => '$' :: (name ++ expandGo e fuel (rest'.drop name.length))
    else c :: expandGo e fuel rest

/-- `os.path.expandvars`. -/
def pyExpandvars (e : List (String × String)) (s : String) : String :=
  String.mk (expandGo e s.toList.length s.toList)

/-! ## External context resolution (lines 279-388) -/

/-- Models `re.sub(r'\D*(\d*)\..*', r'\1', line)` for lines of the
documented `Version <major>.<minor>...` shape: the digit run that
follows the leading non-digit prefix, provided a dot follows it. -/
def reSubMaj (s : String) : String :=
  let cs := s.toList
  let r1 := cs.dropWhile (fun ch => !ch.isDigit)
  let d1 := r1.takeWhile Char.isDigit
  let r2 := r1.dropWhile Char.isDigit
  if r2.headD ' ' = '.' then String.mk d1 else s

/-- Models `re.sub(r'\D*(\d*\.\d*)\..*', r'\1', line)` for lines of the
documented `Version <major>.<minor>.<...>` shape. -/
def reSubMajMin (s : String) : String :=
  let cs := s.toList
  let r1 := cs.dropWhile (fun ch => !ch.isDigit)
  let d1 := r1.takeWhile Char.isDigit
  match r1.dropWhile Char.isDigit with
  | '.' :: r3 =>
    let d2 := r3.takeWhile Char.isDigit
    let r4 := r3.dropWhile Char.isDigit
    if r4.headD ' ' = '.' then String.mk (d1 ++ '.' :: d2) else s
  | _ => s

/-- `getHWLibPath` (lines 292-311): `--lib`, then `BBS_LIB_PATH`, then
`$OPAE_PLATFORM_ROOT/hw/lib`, and the marker-file sanity check. -/
def getHWLibPath (W : World) (o : Opts) (e : List (String × String)) :
    Except String String :=
  let hw : Except String String :=
    match o.lib with
    | some l => .ok l
    | none =>
      match envGet e "BBS_LIB_PATH" with
      | some v => .ok (String.mk (rstripCh '/' v.toList))
      | none =>
        match envGet e "OPAE_PLATFORM_ROOT" with
        | some v => .ok (pyJoin (String.mk (rstripCh '/' v.toList)) "hw/lib")
        | none => .error ("Release hw/lib directory must be specified with " ++
            "OPAE_PLATFORM_ROOT, BBS_LIB_PATH or --lib")
  match hw with
  | .error msg => .error msg
  | .ok d =>
    if W.pathExists (pyJoin d "fme-platform-class.txt") then .ok d
    else .error (d ++ " is not a release hw/lib directory")

/-- `addDefaultFpgaFamily` (lines 320-350): when the family variable is
unset, read the platform-class marker, invoke the classification command
(counted in `famCalls`), store each stdout line (stripped) in the
environment, and fail on a non-zero exit or (outside `--quiet`) on a
still-unset variable. -/
def addDefaultFpgaFamily (W : World) (o : Opts) (st : PState) :
    Except String PState :=
  if (envGet st.env "OPAE_PLATFORM_FPGA_FAMILY").isSome then .ok st
  else
    match getHWLibPath W o st.env with
    | .error e => .error e
    | .ok hwlib =>
      match W.files (pyJoin hwlib "fme-platform-class.txt") with
      | none => .error "failed to set OPAE_PLATFORM_FPGA_FAMILY (IOError)"
      | some _content =>
        let st1 : PState := { st with famCalls := st.famCalls + 1 }
        let env1 := W.famStdout.foldl
          (fun e line => envSet e "OPAE_PLATFORM_FPGA_FAMILY" (pyStrip line)) st1.env
        if W.famExit ≠ 0 then .error "failed to set OPAE_PLATFORM_FPGA_FAMILY"
        else if !o.quiet && (envGet env1 "OPAE_PLATFORM_FPGA_FAMILY").isNone then
          .error "failed to set OPAE_PLATFORM_FPGA_FAMILY (KeyError)"
        else .ok { st1 with env := env1 }

/-- `getQuartusVersion` (lines 356-388): invoke the version-query command
(counted in `qvCalls`), and for each stdout line starting with `Version`
store the extracted major and major.minor versions. -/
def getQuartusVersion (W : World) (_o : Opts) (st : PState) :
    Except String PState :=
  if (envGet st.env "QUARTUS_VERSION").isSome &&
      (envGet st.env "QUARTUS_VERSION_MAJOR").isSome then .ok st
  else
    let st1 : PState := { st with qvCalls := st.qvCalls + 1 }
    let r := W.qvStdout.foldl
      (fun acc lraw =>
        let line := pyStrip lraw
        if strStarts line "Version" then
          (envSet (envSet acc.1 "QUARTUS_VERSION_MAJOR" (reSubMaj line))
            "QUARTUS_VERSION" (reSubMajMin line), true)
        else acc)
      (st1.env, false)
    if W.qvExit ≠ 0 ∨ r.2 = false then .error "Failed to compute QUARTUS_VERSION"
    else .ok { st1 with env := r.1 }

/-! ## `parseConfigFile` (lines 237-276) -/

/-- A raw manifest line after `strip()` and comment truncation
(`c.split('#', 1)[0]` — note the strip happens first). -/
def lineCooked (raw : String) : String :=
  String.mk ((splitCh '#' (pyStripL raw.toList)).headD [])

/-- The per-line loop of `parseConfigFile`, with the recursive include
call abstracted as `rec` (instantiated with one fuel less). -/
def parseLines (o : Opts) (W : World)
    (rec : PState → String → Except String (PState × List String))
    (dir tgt : String) : PState → List String → Except String (PState × List String)
  | st, [] => .ok (st, [])
  | st, raw :: rest =>
    let c1 := lineCooked raw
    match (if strContains c1 "OPAE_PLATFORM_FPGA_FAMILY" &&
              (envGet st.env "OPAE_PLATFORM_FPGA_FAMILY").isNone then
            addDefaultFpgaFamily W o st else .ok st) with
    | .error e => .error e
    | .ok st1 =>
      match (if strContains c1 "QUARTUS_VERSION" &&
                ((envGet st1.env "QUARTUS_VERSION").isNone ||
                 (envGet st1.env "QUARTUS_VERSION_MAJOR").isNone) then
              getQuartusVersion W o st1 else .ok st1) with
      | .error e => .error e
      | .ok st2 =>
        let c := pyExpandvars st2.env c1
        if strStarts c "C:" then
          match rec st2 (pyJoin dir (strDropN c 2)) with
          | .error e => .error e
          | .ok (st3, sub) =>
            match parseLines o W rec dir tgt st3 rest with
            | .error e => .error e
            | .ok (st4, entries) => .ok (st4, sub ++ entries)
        else if c.length ≠ 0 then
          match parseLines o W rec dir tgt st2 rest with
          | .error e => .error e
          | .ok (st5, entries) =>
            .ok (st5, fixRelPath o W.isdir W.cwd c dir tgt :: entries)
        else parseLines o W rec dir tgt st2 rest

/-- `parseConfigFile`: recursive manifest resolution.  The source has no
cycle or depth guard (unbounded recursion on include cycles); the `Nat`
fuel makes the model total, exhaustion surfacing as an error that the
Python program can never report. -/
def parseConfigFile (W : World) (o : Opts) :
    Nat → PState → String → String → Except String (PState × List String)
  | 0, _, _, _ => .error "include recursion fuel exhausted"
  | fuel + 1, st, name, tgt =>
    if name.length = 0 then .ok (st, [])
    else
      match W.files name with
      | none => .error ("failed to open file (" ++ name ++ ")")
      | some content =>
        parseLines o W (fun st' nm => parseConfigFile W o fuel st' nm tgt)
          (pyDirname name) tgt st (pyLines content)

/-! ## Derived definitions used by the claims -/

/-- Plain synthesis mode: no mode flag, relative paths (the argparse
defaults; `--qsf` sets no field that `emitCfg` reads). -/
def synthOpts : Opts := {}

/-- Modelled from the spec: the extension→tag table of §4.1 as documented,
all sixteen rows including the `.ipx` row. -/
def specTagTable : List (String × String) :=
  [(".v",    "VERILOG_FILE"),
   (".sv",   "SYSTEMVERILOG_FILE"),
   (".vh",   "SYSTEMVERILOG_FILE"),
   (".svh",  "SYSTEMVERILOG_FILE"),
   (".vhd",  "VHDL_FILE"),
   (".vhdl", "VHDL_FILE"),
   (".sdc",  "SDC_FILE"),
   (".qsys", "QSYS_FILE"),
   (".ip",   "IP_FILE"),
   (".qip",  "QIP_FILE"),
   (".json", "MISC_FILE"),
   (".tcl",  "SOURCE_TCL_SCRIPT_FILE"),
   (".stp",  "USE_SIGNALTAP_FILE"),
   (".hex",  "MIF_FILE"),
   (".mif",  "MIF_FILE"),
   (".ipx",  "IPX_FILE")]

/-- Some mode table knows this extension (the disjunction `validateTag`
tests). -/
def unionHasExt (ext : String) : Bool :=
  (quartus_tag_map.lookup ext).isSome || (qsys_tag_map.lookup ext).isSome ||
  (tcl_tag_map.lookup ext).isSome || (qsys_ipx_tag_map.lookup ext).isSome ||
  (json_tag_map.lookup ext).isSome || (sim_vlog_tag_map.lookup ext).isSome ||
  (sim_vhdl_tag_map.lookup ext).isSome

/-- The six mode-restricted emission targets. -/
inductive RMode
  | qsysM | tclM | ipxM | jsonM | simVlogM | simVhdlM
deriving DecidableEq

/-- Option settings selecting each restricted mode (as `main` builds them,
`--sim-vlog`/`--sim-vhdl` also setting `sim`). -/
def rmodeOpts : RMode → Opts
  | .qsysM => { qsys := true }
  | .tclM => { tcl := true }
  | .ipxM => { ipx := true }
  | .jsonM => { json := true }
  | .simVlogM => { sim := true, sim_vlog := true }
  | .simVhdlM => { sim := true, sim_vhdl := true }

/-- The tag table `emitCfg` consults in each restricted mode. -/
def rmodeTable : RMode → List (String × String)
  | .qsysM => qsys_tag_map
  | .tclM => tcl_tag_map
  | .ipxM => qsys_ipx_tag_map
  | .jsonM => json_tag_map
  | .simVlogM => sim_vlog_tag_map
  | .simVhdlM => sim_vhdl_tag_map

/-- Sequential composition of two abort-on-error print results (how the
phase-2 loop of `emitCfg` treats list concatenation). -/
def seqRes (a b : List String × Option String) : List String × Option String :=
  match a with
  | (ls, some e) => (ls, some e)
  | (ls, none) => (ls ++ b.1, b.2)

/-! ## Helper lemmas -/

theorem strMk_toList (s : String) : String.mk s.toList = s := by
  cases s
  rfl

theorem isPfx_head_false {c : Char} {ps cs : List Char}
    (h : isPfx [c] cs = false) : isPfx (c :: ps) cs = false := by
  cases cs with
  | nil => rfl
  | cons d ds =>
    simp only [isPfx, Bool.and_true] at h
    simp only [isPfx, h, Bool.false_and]

theorem not_plus_define {c : String} (h : strStarts c "+" = false) :
    strStarts c "+define+" = false := by
  unfold strStarts at h ⊢
  exact isPfx_head_false h

theorem not_plus_incdir {c : String} (h : strStarts c "+" = false) :
    strStarts c "+incdir+" = false := by
  unfold strStarts at h ⊢
  exact isPfx_head_false h

theorem validateTag_none_iff (f : String) :
    validateTag f = none ↔ unionHasExt (extOf f) = true := by
  simp only [validateTag, unionHasExt]
  cases List.lookup (extOf f) quartus_tag_map <;>
    cases List.lookup (extOf f) qsys_tag_map <;>
    cases List.lookup (extOf f) tcl_tag_map <;>
    cases List.lookup (extOf f) qsys_ipx_tag_map <;>
    cases List.lookup (extOf f) json_tag_map <;>
    cases List.lookup (extOf f) sim_vlog_tag_map <;>
    cases List.lookup (extOf f) sim_vhdl_tag_map <;>
    simp

theorem emitPhase2_append (o : Opts) (xs ys : List String) :
    emitPhase2 o (xs ++ ys) = seqRes (emitPhase2 o xs) (emitPhase2 o ys) := by
  induction xs with
  | nil =>
    cases hy : emitPhase2 o ys with
    | mk ls e => simp [emitPhase2, seqRes, hy]
  | cons c xs ih =>
    simp only [List.cons_append, emitPhase2]
    cases h : emitEntry o c with
    | mk ls e =>
      cases e with
      | none =>
        rw [List.append_eq, ih]
        cases hx : emitPhase2 o xs with
        | mk ls2 e2 => cases e2 <;> simp [seqRes]
      | some msg => simp [seqRes]

theorem emitCfg_drop (o : Opts) (xs ys : List String) (c : String)
    (he : emitEntry o c = ([], none))
    (hd : strStarts c "+define+" = false)
    (hi : strStarts c "+incdir+" = false) :
    emitCfg o (xs ++ c :: ys) = emitCfg o (xs ++ ys) := by
  have h1 : emitPhase1 o (xs ++ c :: ys) = emitPhase1 o (xs ++ ys) := by
    rw [show xs ++ c :: ys = xs ++ ([c] ++ ys) from rfl]
    unfold emitPhase1
    by_cases hf : fileTypeFilter o
    · simp [hf]
    · simp [hf, List.filterMap_append, hd, hi]
  have hc : emitPhase2 o (c :: ys) = emitPhase2 o ys := by
    cases hy : emitPhase2 o ys with
    | mk ls e => simp [emitPhase2, he, hy]
  have h2 : emitPhase2 o (xs ++ c :: ys) = emitPhase2 o (xs ++ ys) := by
    rw [emitPhase2_append o xs (c :: ys), emitPhase2_append o xs ys, hc]
  unfold emitCfg
  rw [h1, h2]

/-! ## Claim theorems -/

/-- C10: a resolved entry that begins with `+` but is neither `+define+`
nor `+incdir+` produces no output line and no error in any target mode;
it is skipped by the phase-2 `+`-guard before any extension validation,
and the phase-1 loops match only the two known `+` directives, so the
whole emission is as if the entry were absent. -/
theorem unknown_plus_directive_skipped (o : Opts) (c : String) (xs ys : List String)
    (hp : strStarts c "+" = true)
    (hd : strStarts c "+define+" = false)
    (hi : strStarts c "+incdir+" = false) :
    emitEntry o c = ([], none) ∧
    emitCfg o (xs ++ c :: ys) = emitCfg o (xs ++ ys) := by
  have he : emitEntry o c = ([], none) := by
    simp [emitEntry, hp]
  exact ⟨he, emitCfg_drop o xs ys c he hd hi⟩

theorem unknown_plus_directive_skipped_witness :
    strStarts "+foo+bar" "+" = true ∧
    (emitEntry synthOpts "+foo+bar" = ([], none) ∧
     emitCfg synthOpts (["a.v"] ++ "+foo+bar" :: ["b.sv"]) =
       emitCfg synthOpts (["a.v"] ++ ["b.sv"])) :=
  ⟨by decide,
   unknown_plus_directive_skipped synthOpts "+foo+bar" ["a.v"] ["b.sv"]
     (by decide) (by decide) (by decide)⟩

/-- C5: a bare source entry whose extension is known to some mode table
but absent from the active restricted mode's table (qsys-only, tcl-only,
ipx-only, json-only, sim-verilog, sim-vhdl) is silently dropped: no
output line, no error, and the emitted configuration equals the one
without the entry. -/
theorem mode_filter_silent_drop (m : RMode) (c : String) (xs ys : List String)
    (hplus : strStarts c "+" = false)
    (hcmd : strSplitFirst ':' c = none)
    (hknown : unionHasExt (extOf c) = true)
    (hactive : (rmodeTable m).lookup (extOf c) = none) :
    emitEntry (rmodeOpts m) c = ([], none) ∧
    emitCfg (rmodeOpts m) (xs ++ c :: ys) = emitCfg (rmodeOpts m) (xs ++ ys) := by
  have hval : validateTag c = none := (validateTag_none_iff c).mpr hknown
  have he : emitEntry (rmodeOpts m) c = ([], none) := by
    cases m <;>
      simp_all [emitEntry, emitSource, rmodeOpts, rmodeTable, lookupTag] <;>
      (intro x hx; exact hactive _ _ hx rfl)
  exact ⟨he, emitCfg_drop _ xs ys c he (not_plus_define hplus) (not_plus_incdir hplus)⟩

theorem mode_filter_silent_drop_witness :
    unionHasExt (extOf "constraints.sdc") = true ∧
    (rmodeTable RMode.simVlogM).lookup (extOf "constraints.sdc") = none ∧
    (emitEntry (rmodeOpts RMode.simVlogM) "constraints.sdc" = ([], none) ∧
     emitCfg (rmodeOpts RMode.simVlogM) (["top.sv"] ++ "constraints.sdc" :: []) =
       emitCfg (rmodeOpts RMode.simVlogM) (["top.sv"] ++ [])) :=
  ⟨by decide, by decide,
   mode_filter_silent_drop RMode.simVlogM "constraints.sdc" ["top.sv"] []
     (by decide) (by decide) (by decide) (by decide)⟩

/-- C6: in plain synthesis mode a bare entry tagged
`SOURCE_TCL_SCRIPT_FILE` (extension `.tcl`) is never emitted (no line,
no error, emission as if absent), while a `QI:` synthesis-include
directive emits a `source` command for its path. -/
theorem bare_tcl_synthesis_skip (c : String) (xs ys : List String) (v : String)
    (hplus : strStarts c "+" = false)
    (hcmd : strSplitFirst ':' c = none)
    (hext : extOf c = ".tcl") :
    emitEntry synthOpts c = ([], none) ∧
    emitCfg synthOpts (xs ++ c :: ys) = emitCfg synthOpts (xs ++ ys) ∧
    emitEntry synthOpts ("QI:" ++ v) =
      (["source \"" ++ relPfx synthOpts ++ v ++ "\""], none) := by
  have hknown : unionHasExt (extOf c) = true := by rw [hext]; decide
  have hval : validateTag c = none := (validateTag_none_iff c).mpr hknown
  have hq : lookupTag c quartus_tag_map = some "SOURCE_TCL_SCRIPT_FILE" := by
    unfold lookupTag
    rw [hext]
    decide
  have he : emitEntry synthOpts c = ([], none) := by
    simp [emitEntry, hplus, hcmd, emitSource, hval, hq, synthOpts]
  refine ⟨he, emitCfg_drop _ xs ys c he (not_plus_define hplus) (not_plus_incdir hplus), ?_⟩
  have hqi : ("QI:" ++ v).toList = 'Q' :: 'I' :: ':' :: v.toList := by
    show ("QI:" ++ v).data = _
    rw [String.data_append]
    rfl
  have hsp : strSplitFirst ':' ("QI:" ++ v) = some ("QI", v) := by
    unfold strSplitFirst
    rw [hqi]
    simp [splitFirst, strMk_toList]
  have hnp : strStarts ("QI:" ++ v) "+" = false := by
    unfold strStarts
    rw [hqi]
    rfl
  simp [emitEntry, hnp, hsp, synthOpts, fileTypeFilter]

theorem bare_tcl_synthesis_skip_witness :
    extOf "setup.tcl" = ".tcl" ∧
    (emitEntry synthOpts "setup.tcl" = ([], none) ∧
     emitCfg synthOpts (["top.sv"] ++ "setup.tcl" :: []) =
       emitCfg synthOpts (["top.sv"] ++ []) ∧
     emitEntry synthOpts ("QI:" ++ "util.tcl") =
       (["source \"" ++ relPfx synthOpts ++ "util.tcl" ++ "\""], none)) :=
  ⟨by decide,
   bare_tcl_synthesis_skip "setup.tcl" ["top.sv"] [] "util.tcl"
     (by decide) (by decide) (by decide)⟩

/-- C8: a nonempty manifest entry with no directive prefix and no
`cmd:` form whose path, joined to the manifest's directory, names a
directory receives a synthesized `+incdir+` prefix on the normalized
path. -/
theorem bare_directory_becomes_incdir (o : Opts) (isd : String → Bool)
    (cwd c d tgt : String)
    (hlen : ¬ c.length = 0)
    (hd : strStarts c "+define+" = false)
    (hi : strStarts c "+incdir+" = false)
    (hcmd : strSplitFirst ':' c = none)
    (hdir : isd (pyJoin d c) = true) :
    fixRelPath o isd cwd c d tgt =
      "+incdir+" ++ (if o.abs then pyAbspath cwd (pyRelpath cwd (pyJoin d c) tgt)
                     else pyRelpath cwd (pyJoin d c) tgt) := by
  simp [fixRelPath, hlen, hd, hi, hcmd, hdir]

theorem bare_directory_becomes_incdir_witness :
    (fun s => s == "/m/rtl") (pyJoin "/m" "rtl") = true ∧
    fixRelPath synthOpts (fun s => s == "/m/rtl") "/m" "rtl" "/m" "/m" = "+incdir+rtl" :=
  ⟨by decide,
   (bare_directory_becomes_incdir synthOpts (fun s => s == "/m/rtl") "/m" "rtl" "/m" "/m"
     (by decide) (by decide) (by decide) (by decide) (by decide)).trans (by decide)⟩

/-- C1 counterexample: `.ipx` is one of the sixteen documented rows of
the spec's full-synthesis table, yet lookup of an `.ipx` file in the
code's full synthesis table (`quartus_tag_map`) yields nothing — and
validation does not fail either, since `.ipx` sits in the separate
ipx-only table.  So lookup in the full synthesis table is not total over
the sixteen documented extensions. -/
theorem ipx_full_table_counterexample :
    specTagTable.lookup ".ipx" = some "IPX_FILE" ∧
    extOf "pr.ipx" = ".ipx" ∧
    lookupTag "pr.ipx" quartus_tag_map = none ∧
    validateTag "pr.ipx" = none := by decide

theorem validateTag_msg_of_not_union (f : String)
    (h : unionHasExt (extOf f) = false) :
    validateTag f =
      some ("unrecognized file extension \x27" ++ extOf f ++ "\x27 (" ++ f ++ ")") := by
  have hne : ¬ validateTag f = none := by
    intro hn
    rw [(validateTag_none_iff f).mp hn] at h
    exact Bool.noConfusion h
  simp only [validateTag] at hne ⊢
  split
  · rfl
  · next hcond =>
      rw [if_neg hcond] at hne
      exact absurd rfl hne

/-- C1 amended: the code's full synthesis table is total over its
fifteen extensions and returns exactly the documented tags (the
documented table restricted away from `.ipx` and `quartus_tag_map`
agree row by row); the sixteenth documented extension `.ipx` is served
only by the ipx-only table; and a file whose lowercased extension
appears in none of the mode tables makes validation a fatal error with
the source's diagnostic. -/
theorem tag_tables_amended :
    (∀ p ∈ specTagTable, p.1 ≠ ".ipx" → quartus_tag_map.lookup p.1 = some p.2) ∧
    (∀ p ∈ quartus_tag_map, specTagTable.lookup p.1 = some p.2) ∧
    qsys_ipx_tag_map.lookup ".ipx" = some "IPX_FILE" ∧
    (∀ f : String, unionHasExt (extOf f) = false →
      validateTag f =
        some ("unrecognized file extension \x27" ++ extOf f ++ "\x27 (" ++ f ++ ")")) :=
  ⟨by decide, by decide, by decide, fun f h => validateTag_msg_of_not_union f h⟩

theorem tag_tables_amended_witness :
    ((".sv", "SYSTEMVERILOG_FILE") ∈ specTagTable ∧ (".sv" : String) ≠ ".ipx" ∧
      unionHasExt (extOf "weird.xyz") = false) ∧
    quartus_tag_map.lookup ".sv" = some "SYSTEMVERILOG_FILE" ∧
    validateTag "weird.xyz" =
      some ("unrecognized file extension \x27" ++ extOf "weird.xyz" ++ "\x27 (" ++ "weird.xyz" ++ ")") :=
  ⟨⟨by decide, by decide, by decide⟩,
   tag_tables_amended.1 (".sv", "SYSTEMVERILOG_FILE") (by decide) (by decide),
   tag_tables_amended.2.2.2 "weird.xyz" (by decide)⟩

/-- The empty initial process state (no environment variables, no
external invocations yet). -/
def st0 : PState := { env := [] }

/-- Concrete world for the synthesis end-to-end example of the spec:
a manifest with a define, an include dir, a SystemVerilog source, and a
synthesis-include script. -/
def W3 : World := {
  files := fun n =>
    if n = "/m/hw.cfg" then some "+define+FOO\n+incdir+../rtl\ntop.sv\nQI:setup.tcl"
    else none
  isdir := fun _ => false
  pathExists := fun _ => false
  cwd := "/m"
  famStdout := []
  famExit := 0
  qvStdout := []
  qvExit := 0 }

/-- C3: in full synthesis mode the emitted configuration is the
`THIS_DIR` preamble, then every `+define+` entry as a macro assignment,
then every `+incdir+` entry as a search-path assignment, and only then
the phase-2 lines (source files and include scripts) — so all macro
assignments precede all search-path assignments, and both precede every
source-file or script line.  For the example manifest `+define+FOO`,
`+incdir+../rtl`, `top.sv`, `QI:setup.tcl` the run emits, in order, the
macro assignment, the search-path assignment, the tagged
SYSTEMVERILOG_FILE assignment for `top.sv`, and the `source` command
for `setup.tcl` (after the documented preamble line). -/
theorem synthesis_emission_order :
    (∀ cfg : List String,
      emitCfg synthOpts cfg =
        (["set THIS_DIR [file dirname [info script]]\n"] ++
         cfg.filterMap (fun c =>
           if strStarts c "+define+" then
             some ("set_global_assignment -name VERILOG_MACRO \"" ++ strDropN c 8 ++ "\"")
           else none) ++
         cfg.filterMap (fun c =>
           if strStarts c "+incdir+" then
             some ("set_global_assignment -name SEARCH_PATH \"" ++ relPfx synthOpts ++
               strDropN c 8 ++ "\"")
           else none) ++
         (emitPhase2 synthOpts cfg).1,
         (emitPhase2 synthOpts cfg).2)) ∧
    parseConfigFile W3 synthOpts 1 st0 "/m/hw.cfg" "/m" =
      .ok (st0, ["+define+FOO", "+incdir+../rtl", "top.sv", "QI:setup.tcl"]) ∧
    emitCfg synthOpts ["+define+FOO", "+incdir+../rtl", "top.sv", "QI:setup.tcl"] =
      (["set THIS_DIR [file dirname [info script]]\n",
        "set_global_assignment -name VERILOG_MACRO \"FOO\"",
        "set_global_assignment -name SEARCH_PATH \"$\x7bTHIS_DIR\x7d/../rtl\"",
        "set_global_assignment -name SYSTEMVERILOG_FILE \"$\x7bTHIS_DIR\x7d/top.sv\"",
        "source \"$\x7bTHIS_DIR\x7d/setup.tcl\""], none) :=
  ⟨fun _ => rfl, by rfl, by decide⟩

/-! ## Parsing lemmas for the recursive-include and memoization claims -/

theorem expandGo_no_dollar (e : List (String × String)) :
    ∀ fuel cs, '$' ∉ cs → expandGo e fuel cs = cs := by
  intro fuel
  induction fuel with
  | zero => intro cs _; rfl
  | succ n ih =>
    intro cs h
    cases cs with
    | nil => rfl
    | cons c rest =>
      have hc : ¬ c = '$' := by
        intro hc
        exact h (hc ▸ List.mem_cons_self c rest)
      simp [expandGo, hc, ih rest (fun hm => h (List.mem_cons_of_mem c hm))]

theorem pyExpandvars_no_dollar (e : List (String × String)) (s : String)
    (h : '$' ∉ s.toList) : pyExpandvars e s = s := by
  unfold pyExpandvars
  rw [expandGo_no_dollar e _ _ h, strMk_toList]

theorem parseConfigFile_succ (W : World) (o : Opts) (fuel : Nat) (st : PState)
    (name tgt : String) :
    parseConfigFile W o (fuel + 1) st name tgt =
      (if name.length = 0 then .ok (st, [])
       else
        match W.files name with
        | none => .error ("failed to open file (" ++ name ++ ")")
        | some content =>
          parseLines o W (fun st' nm => parseConfigFile W o fuel st' nm tgt)
            (pyDirname name) tgt st (pyLines content)) := rfl

/-- A manifest line whose cooked text mentions neither trigger variable,
contains no `$`, is not a recursive include, and is nonempty, appends
exactly one normalized entry. -/
theorem parseLines_plain (o : Opts) (W : World)
    (rec : PState → String → Except String (PState × List String))
    (dir tgt : String) (st : PState) (raw : String) (rest : List String)
    (h1 : strContains (lineCooked raw) "OPAE_PLATFORM_FPGA_FAMILY" = false)
    (h2 : strContains (lineCooked raw) "QUARTUS_VERSION" = false)
    (h3 : '$' ∉ (lineCooked raw).toList)
    (h4 : strStarts (lineCooked raw) "C:" = false)
    (h5 : ¬ (lineCooked raw).length = 0) :
    parseLines o W rec dir tgt st (raw :: rest) =
      (match parseLines o W rec dir tgt st rest with
       | .error e => .error e
       | .ok (st2, entries) =>
         .ok (st2, fixRelPath o W.isdir W.cwd (lineCooked raw) dir tgt :: entries)) := by
  simp [parseLines, h1, h2, pyExpandvars_no_dollar _ _ h3, h4, h5]

/-- A manifest line whose cooked text is a `C:` include (no triggers, no
`$`) splices the recursive parse of the named file in place. -/
theorem parseLines_rec (o : Opts) (W : World)
    (rec : PState → String → Except String (PState × List String))
    (dir tgt : String) (st : PState) (raw : String) (rest : List String)
    (h1 : strContains (lineCooked raw) "OPAE_PLATFORM_FPGA_FAMILY" = false)
    (h2 : strContains (lineCooked raw) "QUARTUS_VERSION" = false)
    (h3 : '$' ∉ (lineCooked raw).toList)
    (h4 : strStarts (lineCooked raw) "C:" = true) :
    parseLines o W rec dir tgt st (raw :: rest) =
      (match rec st (pyJoin dir (strDropN (lineCooked raw) 2)) with
       | .error e => .error e
       | .ok (st3, sub) =>
         match parseLines o W rec dir tgt st3 rest with
         | .error e => .error e
         | .ok (st4, entries) => .ok (st4, sub ++ entries)) := by
  simp [parseLines, h1, h2, pyExpandvars_no_dollar _ _ h3, h4]

/-- C2: a manifest `A` whose single line is the recursive include
`C:sub/B.cfg`, with `B` (resolved relative to `A`'s directory)
containing one source file, resolves to the one-element sequence of
`B`'s resolution — the source entry normalized against `B`'s directory
`/proj/sub` — and equals resolving `B` directly.  The state and every
other input stay abstract, so the equality holds for every target
directory, option set, initial environment, and filesystem extension. -/
theorem recursive_include_splice (W : World) (o : Opts) (tgt : String) (st : PState)
    (hA : W.files "/proj/A.cfg" = some "C:sub/B.cfg")
    (hB : W.files "/proj/sub/B.cfg" = some "top.sv") :
    parseConfigFile W o 2 st "/proj/A.cfg" tgt =
      .ok (st, [fixRelPath o W.isdir W.cwd "top.sv" "/proj/sub" tgt]) ∧
    parseConfigFile W o 2 st "/proj/A.cfg" tgt =
      parseConfigFile W o 2 st "/proj/sub/B.cfg" tgt := by
  have hBp : ∀ n st', parseConfigFile W o (n + 1) st' "/proj/sub/B.cfg" tgt =
      .ok (st', [fixRelPath o W.isdir W.cwd "top.sv" "/proj/sub" tgt]) := by
    intro n st'
    rw [parseConfigFile_succ]
    rw [if_neg (by decide : ¬ ("/proj/sub/B.cfg" : String).length = 0)]
    rw [hB]
    show parseLines o W (fun st2 nm => parseConfigFile W o n st2 nm tgt)
        (pyDirname "/proj/sub/B.cfg") tgt st' (pyLines "top.sv") =
      Except.ok (st', [fixRelPath o W.isdir W.cwd "top.sv" "/proj/sub" tgt])
    rw [show pyLines "top.sv" = ["top.sv"] from by decide]
    rw [show pyDirname "/proj/sub/B.cfg" = "/proj/sub" from by decide]
    rw [parseLines_plain _ _ _ _ _ _ _ _
      (by decide) (by decide) (by decide) (by decide) (by decide)]
    rw [show lineCooked "top.sv" = "top.sv" from by decide]
    rfl
  have hAp : parseConfigFile W o 2 st "/proj/A.cfg" tgt =
      .ok (st, [fixRelPath o W.isdir W.cwd "top.sv" "/proj/sub" tgt]) := by
    rw [show (2 : Nat) = 1 + 1 from rfl, parseConfigFile_succ]
    rw [if_neg (by decide : ¬ ("/proj/A.cfg" : String).length = 0)]
    rw [hA]
    show parseLines o W (fun st2 nm => parseConfigFile W o 1 st2 nm tgt)
        (pyDirname "/proj/A.cfg") tgt st (pyLines "C:sub/B.cfg") =
      Except.ok (st, [fixRelPath o W.isdir W.cwd "top.sv" "/proj/sub" tgt])
    rw [show pyLines "C:sub/B.cfg" = ["C:sub/B.cfg"] from by decide]
    rw [show pyDirname "/proj/A.cfg" = "/proj" from by decide]
    rw [parseLines_rec _ _ _ _ _ _ _ _
      (by decide) (by decide) (by decide) (by decide)]
    rw [show pyJoin "/proj" (strDropN (lineCooked "C:sub/B.cfg") 2) = "/proj/sub/B.cfg"
      from by decide]
    rw [hBp 0 st]
    rfl
  exact ⟨hAp, by rw [hAp, hBp 1 st]⟩

/-- Concrete world for the recursive-include witness. -/
def W2 : World := {
  files := fun n =>
    if n = "/proj/A.cfg" then some "C:sub/B.cfg"
    else if n = "/proj/sub/B.cfg" then some "top.sv"
    else none
  isdir := fun _ => false
  pathExists := fun _ => false
  cwd := "/proj"
  famStdout := []
  famExit := 0
  qvStdout := []
  qvExit := 0 }

theorem recursive_include_splice_witness :
    W2.files "/proj/A.cfg" = some "C:sub/B.cfg" ∧
    (parseConfigFile W2 synthOpts 2 st0 "/proj/A.cfg" "/proj" =
       .ok (st0, [fixRelPath synthOpts W2.isdir W2.cwd "top.sv" "/proj/sub" "/proj"]) ∧
     parseConfigFile W2 synthOpts 2 st0 "/proj/A.cfg" "/proj" =
       parseConfigFile W2 synthOpts 2 st0 "/proj/sub/B.cfg" "/proj") :=
  ⟨by decide,
   recursive_include_splice W2 synthOpts "/proj" st0 (by decide) (by decide)⟩

/-! ## The family-resolution memoization invariant (C7) -/

theorem envGet_envSet_self (e : List (String × String)) (k v : String) :
    envGet (envSet e k v) k = some v := by
  simp [envGet, envSet, List.lookup]

theorem envGet_envSet_ne (e : List (String × String)) (k k' v : String)
    (h : ¬ k = k') : envGet (envSet e k' v) k = envGet e k := by
  have hb : (k == k') = false := beq_eq_false_iff_ne.mpr h
  simp [envGet, envSet, List.lookup, hb]

/-- The state invariant of lazy family resolution: either the external
classifier has never been invoked and the variable is unset, or it has
been invoked exactly once and the variable caches its (stripped) single
output line. -/
def famInv (v : String) (st : PState) : Prop :=
  (st.famCalls = 0 ∧ envGet st.env "OPAE_PLATFORM_FPGA_FAMILY" = none) ∨
  (st.famCalls = 1 ∧ envGet st.env "OPAE_PLATFORM_FPGA_FAMILY" = some v)

theorem addDefault_inv (W : World) (o : Opts) (v : String) (st st' : PState)
    (hfs : W.famStdout = [v])
    (h : famInv (pyStrip v) st)
    (hok : addDefaultFpgaFamily W o st = .ok st') : famInv (pyStrip v) st' := by
  unfold addDefaultFpgaFamily at hok
  split at hok
  · injection hok with h2
    rw [← h2]
    exact h
  · next hs =>
    have hnone : envGet st.env "OPAE_PLATFORM_FPGA_FAMILY" = none :=
      Option.not_isSome_iff_eq_none.mp hs
    split at hok
    · exact absurd hok (by simp)
    · split at hok
      · exact absurd hok (by simp)
      · simp only [hfs, List.foldl] at hok
        split at hok
        · exact absurd hok (by simp)
        · rw [show (envGet (envSet st.env "OPAE_PLATFORM_FPGA_FAMILY" (pyStrip v))
              "OPAE_PLATFORM_FPGA_FAMILY").isNone = false from by
            rw [envGet_envSet_self]
            rfl] at hok
          simp only [Bool.and_false] at hok
          rw [if_neg (by simp)] at hok
          injection hok with h2
          rw [← h2]
          have hc0 : st.famCalls = 0 := by
            cases h with
            | inl hl => exact hl.1
            | inr hr => exact absurd hr.2 (by rw [hnone]; simp)
          exact Or.inr ⟨by simp [hc0], by simp [envGet_envSet_self]⟩

theorem envGet_foldl_qvstep (ls : List String)
    (p : List (String × String) × Bool) :
    envGet (ls.foldl (fun acc lraw =>
        let line := pyStrip lraw
        if strStarts line "Version" then
          (envSet (envSet acc.1 "QUARTUS_VERSION_MAJOR" (reSubMaj line))
            "QUARTUS_VERSION" (reSubMajMin line), true)
        else acc) p).1 "OPAE_PLATFORM_FPGA_FAMILY" =
      envGet p.1 "OPAE_PLATFORM_FPGA_FAMILY" := by
  induction ls generalizing p with
  | nil => rfl
  | cons l ls ih =>
    rw [List.foldl_cons, ih]
    show envGet (if strStarts (pyStrip l) "Version" = true then
        (envSet (envSet p.1 "QUARTUS_VERSION_MAJOR" (reSubMaj (pyStrip l)))
          "QUARTUS_VERSION" (reSubMajMin (pyStrip l)), true)
      else p).1 "OPAE_PLATFORM_FPGA_FAMILY" = envGet p.1 "OPAE_PLATFORM_FPGA_FAMILY"
    by_cases h : strStarts (pyStrip l) "Version" = true
    · rw [if_pos h]
      exact (envGet_envSet_ne _ _ _ _ (by decide)).trans
        (envGet_envSet_ne _ _ _ _ (by decide))
    · rw [if_neg h]

theorem qv_fam_preserved (W : World) (o : Opts) (st st' : PState)
    (hok : getQuartusVersion W o st = .ok st') :
    st'.famCalls = st.famCalls ∧
    envGet st'.env "OPAE_PLATFORM_FPGA_FAMILY" =
      envGet st.env "OPAE_PLATFORM_FPGA_FAMILY" := by
  simp only [getQuartusVersion] at hok
  split at hok
  · injection hok with h2
    rw [← h2]
    exact ⟨rfl, rfl⟩
  · split at hok
    · exact absurd hok (by simp)
    · injection hok with h2
      rw [← h2]
      exact ⟨rfl, envGet_foldl_qvstep W.qvStdout (st.env, false)⟩

theorem parseLines_famInv (o : Opts) (W : World) (v : String)
    (rec : PState → String → Except String (PState × List String))
    (dir tgt : String)
    (hfs : W.famStdout = [v])
    (hrec : ∀ st name st2 cfg2, famInv (pyStrip v) st →
      rec st name = .ok (st2, cfg2) → famInv (pyStrip v) st2) :
    ∀ lines st st' cfg, famInv (pyStrip v) st →
      parseLines o W rec dir tgt st lines = .ok (st', cfg) →
      famInv (pyStrip v) st' := by
  intro lines
  induction lines with
  | nil =>
    intro st st' cfg h hok
    simp only [parseLines] at hok
    injection hok with h2
    rw [show st' = st from by rw [← (Prod.mk.injEq _ _ _ _).mp h2.symm |>.1]]
    exact h
  | cons raw rest ih =>
    intro st st' cfg h hok
    simp only [parseLines] at hok
    split at hok
    · exact absurd hok (by simp)
    · next st1 heq1 =>
      have h1 : famInv (pyStrip v) st1 := by
        split at heq1
        · exact addDefault_inv W o v st st1 hfs h heq1
        · injection heq1 with h2
          rw [← h2]
          exact h
      split at hok
      · exact absurd hok (by simp)
      · next st2 heq2 =>
        have h2 : famInv (pyStrip v) st2 := by
          split at heq2
          · obtain ⟨hc, he⟩ := qv_fam_preserved W o st1 st2 heq2
            cases h1 with
            | inl hl => exact Or.inl ⟨by rw [hc, hl.1], by rw [he, hl.2]⟩
            | inr hr => exact Or.inr ⟨by rw [hc, hr.1], by rw [he, hr.2]⟩
          · injection heq2 with h3
            rw [← h3]
            exact h1
        split at hok
        · split at hok
          · exact absurd hok (by simp)
          · next st3 sub hr =>
            have h3 : famInv (pyStrip v) st3 := hrec st2 _ st3 sub h2 hr
            split at hok
            · exact absurd hok (by simp)
            · next st4 entries hp =>
              have h4 : famInv (pyStrip v) st4 := ih st3 st4 entries h3 hp
              injection hok with h5
              injection h5 with h5a h5b
              rw [← h5a]
              exact h4
        · split at hok
          · split at hok
            · exact absurd hok (by simp)
            · next st5 entries hp =>
              have h4 : famInv (pyStrip v) st5 := ih st2 st5 entries h2 hp
              injection hok with h5
              injection h5 with h5a h5b
              rw [← h5a]
              exact h4
          · exact ih st2 st' cfg h2 hok

theorem parseConfigFile_famInv (W : World) (o : Opts) (v : String)
    (hfs : W.famStdout = [v]) :
    ∀ fuel st name tgt st' cfg, famInv (pyStrip v) st →
      parseConfigFile W o fuel st name tgt = .ok (st', cfg) →
      famInv (pyStrip v) st' := by
  intro fuel
  induction fuel with
  | zero =>
    intro st name tgt st' cfg h hok
    exact absurd hok (by simp [parseConfigFile])
  | succ n ih =>
    intro st name tgt st' cfg h hok
    rw [parseConfigFile_succ] at hok
    by_cases hlen : name.length = 0
    · rw [if_pos hlen] at hok
      injection hok with h2
      rw [show st' = st from by rw [← (Prod.mk.injEq _ _ _ _).mp h2.symm |>.1]]
      exact h
    · rw [if_neg hlen] at hok
      cases hf : W.files name with
      | none =>
        rw [hf] at hok
        exact absurd hok (by simp)
      | some content =>
        rw [hf] at hok
        exact parseLines_famInv o W v _ _ tgt hfs
          (fun st1 nm st2 cfg2 hi hr => ih st1 nm tgt st2 cfg2 hi hr)
          (pyLines content) st st' cfg h hok

/-- Concrete world for the family-memoization witness: manifest `a.cfg`
includes `b.cfg`, both mention `$OPAE_PLATFORM_FPGA_FAMILY`, the
release directory is `/lib`, and the classifier prints `Arria10`. -/
def W7 : World := {
  files := fun n =>
    if n = "/p/a.cfg" then some "C:b.cfg\nqsys/$OPAE_PLATFORM_FPGA_FAMILY/one.sv"
    else if n = "/p/b.cfg" then some "two_$OPAE_PLATFORM_FPGA_FAMILY.sv"
    else if n = "/lib/fme-platform-class.txt" then some "dcp_1_0\n"
    else none
  isdir := fun _ => false
  pathExists := fun n => n = "/lib/fme-platform-class.txt"
  cwd := "/p"
  famStdout := ["Arria10"]
  famExit := 0
  qvStdout := []
  qvExit := 0 }

/-- Options for the memoization witness: `--lib /lib`, default mode. -/
def o7 : Opts := { lib := some "/lib" }

/-- The final state of the memoization example: one classifier
invocation, the family variable cached. -/
def st7 : PState :=
  { env := [("OPAE_PLATFORM_FPGA_FAMILY", "Arria10")], famCalls := 1, qvCalls := 0 }

/-- C7: when the external classifier returns a single line, any parse
that starts with the family variable unset invokes the classifier at
most once, and if it was invoked, every later lookup observes the
cached value; concretely, a manifest that mentions the variable on a
line of a recursively included file and again on its own later line
triggers exactly one invocation, both lines substituting the cached
classifier output. -/
theorem fpga_family_memoized :
    (∀ (W : World) (o : Opts) (v : String) (fuel : Nat) (st : PState)
        (name tgt : String) (st' : PState) (cfg : List String),
      W.famStdout = [v] → pyStrip v = v →
      st.famCalls = 0 → envGet st.env "OPAE_PLATFORM_FPGA_FAMILY" = none →
      parseConfigFile W o fuel st name tgt = .ok (st', cfg) →
      st'.famCalls ≤ 1 ∧
        (st'.famCalls = 1 →
          envGet st'.env "OPAE_PLATFORM_FPGA_FAMILY" = some v)) ∧
    parseConfigFile W7 o7 2 st0 "/p/a.cfg" "/p" =
      .ok (st7, ["two_Arria10.sv", "qsys/Arria10/one.sv"]) := by
  constructor
  · intro W o v fuel st name tgt st' cfg hfs hvs hc0 he0 hok
    have hinv := parseConfigFile_famInv W o v hfs fuel st name tgt st' cfg
      (Or.inl ⟨hc0, he0⟩) hok
    rw [hvs] at hinv
    cases hinv with
    | inl h =>
      exact ⟨by omega, fun h1 => absurd h1 (by omega)⟩
    | inr h =>
      exact ⟨by omega, fun _ => h.2⟩
  · rfl

/-! ## Path algebra for the normalization-idempotence claim (C4) -/

/-- A normalized absolute-path component: nonempty, not a dot entry,
and free of the separator. -/
def goodComp (x : List Char) : Prop :=
  x ≠ [] ∧ x ≠ ['.'] ∧ x ≠ ['.', '.'] ∧ '/' ∉ x

/-- All components normalized. -/
def CleanComps (l : List (List Char)) : Prop := ∀ x ∈ l, goodComp x

/-- The absolute path `/c1/.../cn` (just `/` when `l = []`). -/
def mkAbs (l : List (List Char)) : String := String.mk ('/' :: interCh '/' l)

theorem splitCh_ne_nil (sep : Char) (cs : List Char) : splitCh sep cs ≠ [] := by
  cases cs with
  | nil => simp [splitCh]
  | cons c rest =>
    simp only [splitCh]
    split
    · simp
    · cases h : splitCh sep rest <;> simp

theorem mem_of_getLast?_eq {α : Type} {l : List α} {x : α}
    (h : l.getLast? = some x) : x ∈ l := by
  obtain ⟨hne, hx⟩ := List.mem_getLast?_eq_getLast (by rw [Option.mem_def]; exact h)
  rw [hx]
  exact List.getLast_mem hne

theorem splitCh_append_sep (sep : Char) (a b : List Char) :
    splitCh sep (a ++ sep :: b) = splitCh sep a ++ splitCh sep b := by
  induction a with
  | nil => simp [splitCh]
  | cons c a ih =>
    by_cases hc : c = sep
    · rw [List.cons_append]
      rw [show splitCh sep (c :: (a ++ sep :: b)) = [] :: splitCh sep (a ++ sep :: b)
        from by simp [splitCh, hc]]
      rw [show splitCh sep (c :: a) = [] :: splitCh sep a from by simp [splitCh, hc]]
      rw [ih]
      rfl
    · rw [List.cons_append]
      rw [show splitCh sep (c :: (a ++ sep :: b)) =
          (match splitCh sep (a ++ sep :: b) with
           | [] => [[c]]
           | s :: ss => (c :: s) :: ss) from by simp [splitCh, hc]]
      rw [show splitCh sep (c :: a) =
          (match splitCh sep a with
           | [] => [[c]]
           | s :: ss => (c :: s) :: ss) from by simp [splitCh, hc]]
      rw [ih]
      cases ha : splitCh sep a with
      | nil => exact absurd ha (splitCh_ne_nil sep a)
      | cons s ss => rfl

theorem splitCh_no_sep (sep : Char) (a : List Char) (h : sep ∉ a) :
    splitCh sep a = [a] := by
  induction a with
  | nil => rfl
  | cons c a ih =>
    have hc : ¬ c = sep := fun hc => h (by rw [hc]; exact List.mem_cons_self _ _)
    simp only [splitCh, if_neg hc]
    rw [ih (fun hm => h (List.mem_cons_of_mem _ hm))]

theorem splitCh_interCh (sep : Char) (l : List (List Char)) (hne : l ≠ [])
    (h : ∀ x ∈ l, sep ∉ x) :
    splitCh sep (interCh sep l) = l := by
  induction l with
  | nil => exact absurd rfl hne
  | cons x l ih =>
    cases l with
    | nil => exact splitCh_no_sep sep x (h x (List.mem_cons_self _ _))
    | cons y ys =>
      show splitCh sep (x ++ sep :: interCh sep (y :: ys)) = x :: y :: ys
      rw [splitCh_append_sep, splitCh_no_sep sep x (h x (List.mem_cons_self _ _)),
        ih (by simp) (fun z hz => h z (List.mem_cons_of_mem _ hz))]
      rfl

theorem splitCh_mem_chars {sep : Char} {cs x : List Char} {ch : Char}
    (hx : x ∈ splitCh sep cs) (hc : ch ∈ x) : ch ∈ cs := by
  induction cs generalizing x with
  | nil =>
    simp [splitCh] at hx
    rw [hx] at hc
    exact absurd hc (List.not_mem_nil ch)
  | cons c rest ih =>
    by_cases hcs : c = sep
    · simp only [splitCh, if_pos hcs] at hx
      cases hx with
      | head => exact absurd hc (List.not_mem_nil ch)
      | tail _ hx2 => exact List.mem_cons_of_mem c (ih hx2 hc)
    · simp only [splitCh, if_neg hcs] at hx
      cases hsp : splitCh sep rest with
      | nil => exact absurd hsp (splitCh_ne_nil sep rest)
      | cons s ss =>
        rw [hsp] at hx
        cases hx with
        | head =>
          cases hc with
          | head => exact List.mem_cons_self _ _
          | tail _ hc2 =>
            have hs : s ∈ splitCh sep rest := by
              rw [hsp]
              exact List.mem_cons_self _ _
            exact List.mem_cons_of_mem c (ih hs hc2)
        | tail _ hx2 =>
          have hxs : x ∈ splitCh sep rest := by
            rw [hsp]
            exact List.mem_cons_of_mem _ hx2
          exact List.mem_cons_of_mem c (ih hxs hc)

theorem splitCh_no_slash {cs x : List Char} (hx : x ∈ splitCh '/' cs) :
    '/' ∉ x := by
  induction cs generalizing x with
  | nil =>
    simp [splitCh] at hx
    rw [hx]
    exact List.not_mem_nil _
  | cons c rest ih =>
    by_cases hcs : c = '/'
    · simp only [splitCh, if_pos hcs] at hx
      cases hx with
      | head => exact List.not_mem_nil _
      | tail _ hx2 => exact ih hx2
    · simp only [splitCh, if_neg hcs] at hx
      cases hsp : splitCh '/' rest with
      | nil => exact absurd hsp (splitCh_ne_nil '/' rest)
      | cons s ss =>
        rw [hsp] at hx
        cases hx with
        | head =>
          intro hmem
          cases hmem with
          | head => exact hcs rfl
          | tail _ h2 =>
            exact ih (by rw [hsp]; exact List.mem_cons_self _ _) h2
        | tail _ hx2 =>
          exact ih (by rw [hsp]; exact List.mem_cons_of_mem _ hx2)

theorem interCh_mem_chars {sep : Char} {l : List (List Char)} {ch : Char}
    (h : ch ∈ interCh sep l) : ch = sep ∨ ∃ x ∈ l, ch ∈ x := by
  induction l with
  | nil => exact absurd h (List.not_mem_nil ch)
  | cons x xs ih =>
    cases xs with
    | nil => exact Or.inr ⟨x, List.mem_cons_self _ _, h⟩
    | cons y ys =>
      rw [show interCh sep (x :: y :: ys) = x ++ sep :: interCh sep (y :: ys) from rfl] at h
      rcases List.mem_append.mp h with h1 | h2
      · exact Or.inr ⟨x, List.mem_cons_self _ _, h1⟩
      · cases h2 with
        | head => exact Or.inl rfl
        | tail _ h3 =>
          rcases ih h3 with h4 | ⟨z, hz, hcz⟩
          · exact Or.inl h4
          · exact Or.inr ⟨z, List.mem_cons_of_mem _ hz, hcz⟩

theorem interCh_ne_nil {sep : Char} {l : List (List Char)} (hne : l ≠ [])
    (h : ∀ x ∈ l, x ≠ []) : interCh sep l ≠ [] := by
  cases l with
  | nil => exact absurd rfl hne
  | cons x xs =>
    cases xs with
    | nil => exact h x (List.mem_cons_self _ _)
    | cons y ys =>
      show x ++ sep :: interCh sep (y :: ys) ≠ []
      cases hx : x with
      | nil => simp
      | cons c cs => simp

theorem normLoop_clean_app (ab : Bool) (l : List (List Char))
    (h : ∀ x ∈ l, x ≠ [] ∧ x ≠ ['.'] ∧ x ≠ ['.', '.']) :
    ∀ acc, normLoop ab acc l = acc ++ l := by
  induction l with
  | nil => intro acc; simp [normLoop]
  | cons comp rest ih =>
    intro acc
    obtain ⟨h1, h2, h3⟩ := h comp (List.mem_cons_self _ _)
    have hstep : normLoop ab acc (comp :: rest) = normLoop ab (acc ++ [comp]) rest := by
      show (if comp = [] ∨ comp = ['.'] then normLoop ab acc rest
        else if comp ≠ ['.', '.'] ∨ (ab = false ∧ acc = []) ∨
            acc.getLast? = some ['.', '.'] then
          normLoop ab (acc ++ [comp]) rest
        else if acc ≠ [] then normLoop ab acc.dropLast rest
        else normLoop ab acc rest) = normLoop ab (acc ++ [comp]) rest
      rw [if_neg (by simp [h1, h2]), if_pos (Or.inl h3)]
    rw [hstep, ih (fun x hx => h x (List.mem_cons_of_mem _ hx)) (acc ++ [comp])]
    simp

theorem normLoop_append (ab : Bool) (l1 l2 : List (List Char)) :
    ∀ acc, normLoop ab acc (l1 ++ l2) = normLoop ab (normLoop ab acc l1) l2 := by
  induction l1 with
  | nil => intro acc; rfl
  | cons comp rest ih =>
    intro acc
    show normLoop ab acc (comp :: (rest ++ l2)) = _
    simp only [normLoop]
    split
    · exact ih acc
    · split
      · exact ih (acc ++ [comp])
      · split
        · exact ih acc.dropLast
        · exact ih acc

theorem normLoop_popAll : ∀ (k : Nat) (acc : List (List Char)),
    ['.', '.'] ∉ acc → k ≤ acc.length →
    normLoop true acc (List.replicate k ['.', '.']) = acc.take (acc.length - k) := by
  intro k
  induction k with
  | zero =>
    intro acc _ _
    simp [normLoop, List.take_length]
  | succ n ih =>
    intro acc hmem hlen
    have hne : acc ≠ [] := by
      intro h
      rw [h] at hlen
      simp at hlen
    rw [List.replicate_succ]
    have hlast : ¬ acc.getLast? = some ['.', '.'] := by
      intro h
      exact hmem (mem_of_getLast?_eq h)
    have hstep : normLoop true acc (['.', '.'] :: List.replicate n ['.', '.']) =
        normLoop true acc.dropLast (List.replicate n ['.', '.']) := by
      show (if (['.', '.'] : List Char) = [] ∨ (['.', '.'] : List Char) = ['.'] then
          normLoop true acc (List.replicate n ['.', '.'])
        else if (['.', '.'] : List Char) ≠ ['.', '.'] ∨ (true = false ∧ acc = []) ∨
            acc.getLast? = some ['.', '.'] then
          normLoop true (acc ++ [['.', '.']]) (List.replicate n ['.', '.'])
        else if acc ≠ [] then normLoop true acc.dropLast (List.replicate n ['.', '.'])
        else normLoop true acc (List.replicate n ['.', '.'])) =
        normLoop true acc.dropLast (List.replicate n ['.', '.'])
      rw [if_neg (by simp), if_neg (by simp [hlast]), if_pos hne]
    rw [hstep]
    have hmem2 : ['.', '.'] ∉ acc.dropLast :=
      fun h => hmem (List.dropLast_subset acc h)
    have hlen2 : n ≤ acc.dropLast.length := by
      rw [List.length_dropLast]
      omega
    rw [ih acc.dropLast hmem2 hlen2, List.length_dropLast, List.dropLast_eq_take,
      List.take_take]
    congr 1
    omega

theorem normLoop_mem {ab : Bool} : ∀ (l acc : List (List Char)) (x : List Char),
    x ∈ normLoop ab acc l → x ∈ acc ∨ (x ∈ l ∧ x ≠ [] ∧ x ≠ ['.']) := by
  intro l
  induction l with
  | nil =>
    intro acc x h
    exact Or.inl h
  | cons comp rest ih =>
    intro acc x h
    rw [show normLoop ab acc (comp :: rest) = _ from rfl] at h
    simp only [normLoop] at h
    split at h
    · rcases ih acc x h with h1 | ⟨h2, h3⟩
      · exact Or.inl h1
      · exact Or.inr ⟨List.mem_cons_of_mem _ h2, h3⟩
    · next hne =>
      split at h
      · rcases ih (acc ++ [comp]) x h with h1 | ⟨h2, h3⟩
        · rcases List.mem_append.mp h1 with h4 | h4
          · exact Or.inl h4
          · have : x = comp := by simpa using h4
            rw [this]
            refine Or.inr ⟨List.mem_cons_self _ _, ?_, ?_⟩
            · intro hx; exact hne (Or.inl hx)
            · intro hx; exact hne (Or.inr hx)
        · exact Or.inr ⟨List.mem_cons_of_mem _ h2, h3⟩
      · split at h
        · rcases ih acc.dropLast x h with h1 | ⟨h2, h3⟩
          · exact Or.inl (List.dropLast_subset acc h1)
          · exact Or.inr ⟨List.mem_cons_of_mem _ h2, h3⟩
        · rcases ih acc x h with h1 | ⟨h2, h3⟩
          · exact Or.inl h1
          · exact Or.inr ⟨List.mem_cons_of_mem _ h2, h3⟩

theorem normLoop_no_pardir : ∀ (l acc : List (List Char)),
    ['.', '.'] ∉ acc → ['.', '.'] ∉ normLoop true acc l := by
  intro l
  induction l with
  | nil => intro acc h; exact h
  | cons comp rest ih =>
    intro acc h
    simp only [normLoop]
    split
    · exact ih acc h
    · split
      · next hcond =>
        refine ih (acc ++ [comp]) ?_
        intro hm
        rcases List.mem_append.mp hm with h1 | h1
        · exact h h1
        · have hcomp : ['.', '.'] = comp := by simpa using h1
          rcases hcond with hc | hc | hc
          · exact hc hcomp.symm
          · exact Bool.noConfusion hc.1
          · exact h (mem_of_getLast?_eq hc)
      · split
        · exact ih acc.dropLast (fun hm => h (List.dropLast_subset acc hm))
        · exact ih acc h

theorem commonPrefixLen_le_left : ∀ (a b : List (List Char)),
    commonPrefixLen a b ≤ a.length := by
  intro a
  induction a with
  | nil => intro b; simp [commonPrefixLen]
  | cons x xs ih =>
    intro b
    cases b with
    | nil => simp [commonPrefixLen]
    | cons y ys =>
      simp only [commonPrefixLen]
      split
      · have := ih ys
        simp
        omega
      · simp

theorem commonPrefixLen_le_right : ∀ (a b : List (List Char)),
    commonPrefixLen a b ≤ b.length := by
  intro a
  induction a with
  | nil => intro b; simp [commonPrefixLen]
  | cons x xs ih =>
    intro b
    cases b with
    | nil => simp [commonPrefixLen]
    | cons y ys =>
      simp only [commonPrefixLen]
      split
      · have := ih ys
        simp
        omega
      · simp

theorem commonPrefixLen_take : ∀ (a b : List (List Char)),
    a.take (commonPrefixLen a b) = b.take (commonPrefixLen a b) := by
  intro a
  induction a with
  | nil => intro b; simp [commonPrefixLen]
  | cons x xs ih =>
    intro b
    cases b with
    | nil => simp [commonPrefixLen]
    | cons y ys =>
      simp only [commonPrefixLen]
      split
      · next heq =>
        simp only [List.take_succ_cons, heq, ih ys]
      · simp

theorem filter_ne_nil_eq (N : List (List Char)) (hne : ∀ x ∈ N, x ≠ []) :
    N.filter (· ≠ []) = N := by
  induction N with
  | nil => rfl
  | cons x xs ih =>
    rw [List.filter_cons]
    rw [if_pos (by simp [hne x (List.mem_cons_self _ _)])]
    rw [ih (fun y hy => hne y (List.mem_cons_of_mem _ hy))]

theorem interCh_eq_append (sep : Char) (x : List Char) (xs : List (List Char)) :
    interCh sep (x :: xs) = x ++ (if xs = [] then [] else sep :: interCh sep xs) := by
  cases xs with
  | nil => simp [interCh]
  | cons y ys => rfl

theorem interCh_headD (sep : Char) (d : Char) (x : List Char) (xs : List (List Char))
    (hx : x ≠ []) : (interCh sep (x :: xs)).headD d = x.headD d := by
  rw [interCh_eq_append]
  cases x with
  | nil => exact absurd rfl hx
  | cons c cs => rfl

theorem interCh_getLast_ne_slash (dl : List (List Char)) (hdl : CleanComps dl)
    (hne : dl ≠ []) : ¬ (interCh '/' dl).getLast? = some '/' := by
  induction dl with
  | nil => exact absurd rfl hne
  | cons x xs ih =>
    cases xs with
    | nil =>
      intro h
      exact (hdl x (List.mem_cons_self _ _)).2.2.2 (mem_of_getLast?_eq h)
    | cons y ys =>
      have hclean : CleanComps (y :: ys) :=
        fun z hz => hdl z (List.mem_cons_of_mem _ hz)
      have hiy : interCh '/' (y :: ys) ≠ [] := by
        refine interCh_ne_nil (by simp) ?_
        intro z hz
        exact (hclean z hz).1
      intro h
      rw [show interCh '/' (x :: y :: ys) = x ++ '/' :: interCh '/' (y :: ys) from rfl] at h
      rw [List.getLast?_append_of_ne_nil x (by simp)] at h
      rw [show ('/' :: interCh '/' (y :: ys)) = ['/'] ++ interCh '/' (y :: ys) from rfl] at h
      rw [List.getLast?_append_of_ne_nil ['/'] hiy] at h
      exact ih hclean (by simp) h

theorem mkAbs_toList (l : List (List Char)) :
    (mkAbs l).toList = '/' :: interCh '/' l := rfl

/-- Shape of `join(mkAbs dl, b)` for relative `b`. -/
theorem pyJoinL_mkAbs (dl : List (List Char)) (hdl : CleanComps dl)
    (b : List Char) (hb : pyIsAbsL b = false) :
    pyJoinL (mkAbs dl).toList b =
      '/' :: (if dl = [] then b else interCh '/' dl ++ '/' :: b) := by
  rw [mkAbs_toList]
  cases dl with
  | nil =>
    show pyJoinL ['/'] b = '/' :: b
    unfold pyJoinL
    rw [if_neg (by simp [hb])]
    simp
  | cons x xs =>
    have hi : interCh '/' (x :: xs) ≠ [] :=
      interCh_ne_nil (by simp) (fun z hz => (hdl z hz).1)
    rw [if_neg (by simp)]
    show pyJoinL ('/' :: interCh '/' (x :: xs)) b =
      '/' :: (interCh '/' (x :: xs) ++ '/' :: b)
    unfold pyJoinL
    rw [if_neg (by simp [hb]), if_neg ?hcond]
    · rfl
    case hcond =>
      intro hor
      rcases hor with h | h
      · exact List.noConfusion h
      · rw [show ('/' :: interCh '/' (x :: xs)) = ['/'] ++ interCh '/' (x :: xs)
          from rfl] at h
        rw [List.getLast?_append_of_ne_nil ['/'] hi] at h
        exact interCh_getLast_ne_slash (x :: xs) hdl (by simp) h

theorem pyJoin_mkAbs_single_slash (dl : List (List Char)) (hdl : CleanComps dl)
    (b : List Char) (hb : pyIsAbsL b = false) :
    pyIsAbsL (pyJoinL (mkAbs dl).toList b) = true ∧
    isPfx ['/', '/'] (pyJoinL (mkAbs dl).toList b) = false := by
  rw [pyJoinL_mkAbs dl hdl b hb]
  constructor
  · simp [pyIsAbsL, isPfx]
  · cases dl with
    | nil =>
      rw [if_pos rfl]
      cases b with
      | nil => rfl
      | cons c cb =>
        have hcb : (('/' : Char) == c) = false := by
          simpa [pyIsAbsL, isPfx] using hb
        simp [isPfx, hcb]
    | cons x xs =>
      rw [if_neg (by simp)]
      obtain ⟨hx1, _, _, hx4⟩ := hdl x (List.mem_cons_self _ _)
      rw [interCh_eq_append]
      cases hxe : x with
      | nil => exact absurd hxe hx1
      | cons c cb =>
        have hc : c ≠ '/' := by
          intro h
          exact hx4 (by rw [hxe, h]; exact List.mem_cons_self _ _)
        have hcb : (('/' : Char) == c) = false := by
          refine beq_eq_false_iff_ne.mpr ?_
          exact fun h => hc h.symm
        simp only [List.cons_append]
        simp [isPfx, hcb]

theorem pyNormpathL_one_slash (cs : List Char)
    (h1 : pyIsAbsL cs = true) (h2 : isPfx ['/', '/'] cs = false) :
    pyNormpathL cs = '/' :: interCh '/' (normLoop true [] (splitCh '/' cs)) := by
  have hne : cs ≠ [] := by
    intro h
    rw [h] at h1
    exact Bool.noConfusion h1
  unfold pyNormpathL
  rw [if_neg hne]
  simp only [h1, h2, Bool.false_and, if_true, if_false, Bool.and_self]
  simp

theorem fpga_family_memoized_witness :
    W7.famStdout = ["Arria10"] ∧ pyStrip "Arria10" = "Arria10" ∧
    (st7.famCalls ≤ 1 ∧
     (st7.famCalls = 1 →
       envGet st7.env "OPAE_PLATFORM_FPGA_FAMILY" = some "Arria10")) :=
  ⟨rfl, by decide,
   fpga_family_memoized.1 W7 o7 "Arria10" 2 st0 "/p/a.cfg" "/p" st7
     ["two_Arria10.sv", "qsys/Arria10/one.sv"]
     rfl (by decide) rfl rfl (by rfl)⟩

theorem toList_mk (l : List Char) : (String.mk l).toList = l := rfl

theorem strToList_append (a b : String) : (a ++ b).toList = a.toList ++ b.toList := by
  cases a
  cases b
  rfl

theorem strLen_toList (s : String) : s.length = s.toList.length := rfl

theorem strEmpty_append (s : String) : "" ++ s = s := by
  cases s
  rfl

theorem isPfx_append_self (a b : List Char) : isPfx a (a ++ b) = true := by
  induction a with
  | nil => rfl
  | cons c cs ih => simp [isPfx, ih]

theorem isPfx_true_append {pat a : List Char} (h : isPfx pat a = true) (b : List Char) :
    isPfx pat (a ++ b) = true := by
  induction pat generalizing a with
  | nil => rfl
  | cons p ps ih =>
    cases a with
    | nil => exact absurd h (by simp [isPfx])
    | cons c cs =>
      simp only [isPfx, Bool.and_eq_true] at h
      simp only [List.cons_append, isPfx, h.1, Bool.true_and]
      exact ih h.2

theorem isPfx_append_of_le {pat a : List Char} (h : pat.length ≤ a.length)
    (b : List Char) : isPfx pat (a ++ b) = isPfx pat a := by
  induction pat generalizing a with
  | nil => rfl
  | cons p ps ih =>
    cases a with
    | nil => simp at h
    | cons c cs =>
      simp only [List.length_cons, Nat.succ_le_succ_iff] at h
      simp only [List.cons_append, isPfx]
      rw [List.append_eq, ih h]

theorem isPfx_false_append_of_not_mem {pat a : List Char} {ch : Char}
    (hch : ch ∉ pat) (h : isPfx pat a = false) (b : List Char) :
    isPfx pat (a ++ ch :: b) = false := by
  induction pat generalizing a with
  | nil => exact absurd h (by simp [isPfx])
  | cons p ps ih =>
    cases a with
    | nil =>
      have hpc : (p == ch) = false :=
        beq_eq_false_iff_ne.mpr (fun he => hch (he ▸ List.mem_cons_self _ _))
      simp [isPfx, hpc]
    | cons c cs =>
      simp only [isPfx] at h
      cases hpc : (p == c) with
      | false => simp [List.cons_append, isPfx, hpc]
      | true =>
        rw [hpc] at h
        simp only [Bool.true_and] at h
        simp only [List.cons_append, isPfx, hpc, Bool.true_and]
        exact ih (fun hm => hch (List.mem_cons_of_mem _ hm)) h

theorem isPfx_single_false (c : Char) (cs : List Char) (h : cs.headD ' ' ≠ c) :
    isPfx [c] cs = false := by
  cases cs with
  | nil => rfl
  | cons d ds =>
    rw [List.headD_cons] at h
    have hb : (c == d) = false := beq_eq_false_iff_ne.mpr (fun he => h he.symm)
    simp [isPfx, hb]

theorem strStarts_plus_false (q pat : String)
    (hpat : pat.toList.headD ' ' = '+') (hq : q.toList.headD ' ' ≠ '+') :
    strStarts q pat = false := by
  unfold strStarts
  cases hp : pat.toList with
  | nil =>
    rw [hp] at hpat
    exact absurd hpat (by decide)
  | cons c cs =>
    rw [hp] at hpat
    rw [List.headD_cons] at hpat
    subst hpat
    exact isPfx_head_false (isPfx_single_false '+' _ hq)

theorem pyIsAbsL_false_of_head (cs : List Char) (h : cs.headD ' ' ≠ '/') :
    pyIsAbsL cs = false := by
  cases cs with
  | nil => rfl
  | cons c rest =>
    rw [List.headD_cons] at h
    have hb : (('/' : Char) == c) = false := beq_eq_false_iff_ne.mpr (fun he => h he.symm)
    simp [pyIsAbsL, isPfx, hb]

theorem splitFirst_none_of_not_mem (sep : Char) (cs : List Char) (h : sep ∉ cs) :
    splitFirst sep cs = none := by
  induction cs with
  | nil => rfl
  | cons c rest ih =>
    have hc : ¬ c = sep := fun he => h (he ▸ List.mem_cons_self _ _)
    simp only [splitFirst, if_neg hc]
    rw [ih (fun hm => h (List.mem_cons_of_mem _ hm))]

theorem splitFirst_isSome_of_mem (sep : Char) (cs : List Char) (h : sep ∈ cs) :
    ∃ ab, splitFirst sep cs = some ab := by
  induction cs with
  | nil => exact absurd h (List.not_mem_nil _)
  | cons c rest ih =>
    by_cases hc : c = sep
    · exact ⟨([], rest), by simp [splitFirst, hc]⟩
    · have hm : sep ∈ rest := by
        rcases List.mem_cons.mp h with h1 | h1
        · exact absurd h1.symm hc
        · exact h1
      obtain ⟨⟨a, b⟩, hab⟩ := ih hm
      exact ⟨(c :: a, b), by simp [splitFirst, if_neg hc, hab]⟩

theorem strSplitFirst_none (sep : Char) (s : String)
    (h : strSplitFirst sep s = none) : sep ∉ s.toList := by
  intro hm
  obtain ⟨⟨a, b⟩, hab⟩ := splitFirst_isSome_of_mem sep s.toList hm
  unfold strSplitFirst at h
  rw [hab] at h
  exact Option.noConfusion h

theorem splitFirst_eq_some (sep : Char) : ∀ (cs a b : List Char),
    splitFirst sep cs = some (a, b) → sep ∉ a ∧ cs = a ++ sep :: b := by
  intro cs
  induction cs with
  | nil => intro a b h; exact Option.noConfusion h
  | cons c rest ih =>
    intro a b h
    by_cases hc : c = sep
    · rw [show splitFirst sep (c :: rest) = some ([], rest) from by simp [splitFirst, hc]] at h
      injection h with h2
      rw [Prod.mk.injEq] at h2
      obtain ⟨ha, hb⟩ := h2
      subst ha
      subst hb
      constructor
      · exact List.not_mem_nil _
      · rw [hc]
        rfl
    · simp only [splitFirst, if_neg hc] at h
      cases hs : splitFirst sep rest with
      | none =>
        rw [hs] at h
        exact Option.noConfusion h
      | some ab =>
        obtain ⟨a0, b0⟩ := ab
        rw [hs] at h
        injection h with h2
        rw [Prod.mk.injEq] at h2
        obtain ⟨ha, hb⟩ := h2
        subst ha
        subst hb
        obtain ⟨hmem, heq⟩ := ih a0 b0 hs
        constructor
        · intro hm
          rcases List.mem_cons.mp hm with h1 | h1
          · exact hc h1.symm
          · exact hmem h1
        · rw [List.cons_append, ← heq]

theorem splitFirst_append_sep (sep : Char) (a b : List Char) (h : sep ∉ a) :
    splitFirst sep (a ++ sep :: b) = some (a, b) := by
  induction a with
  | nil => simp [splitFirst]
  | cons c a ih =>
    have hc : ¬ c = sep := fun he => h (he ▸ List.mem_cons_self _ _)
    simp only [List.cons_append, splitFirst, if_neg hc]
    rw [List.append_eq, ih (fun hm => h (List.mem_cons_of_mem _ hm))]

theorem strSplitFirst_some (sep : Char) (s a b : String)
    (h : strSplitFirst sep s = some (a, b)) :
    sep ∉ a.toList ∧ s.toList = a.toList ++ sep :: b.toList := by
  unfold strSplitFirst at h
  cases hs : splitFirst sep s.toList with
  | none =>
    rw [hs] at h
    exact Option.noConfusion h
  | some ab =>
    obtain ⟨a0, b0⟩ := ab
    rw [hs] at h
    injection h with h2
    rw [Prod.mk.injEq] at h2
    obtain ⟨ha, hb⟩ := h2
    obtain ⟨hmem, heq⟩ := splitFirst_eq_some sep s.toList a0 b0 hs
    subst ha
    subst hb
    rw [toList_mk, toList_mk]
    exact ⟨hmem, heq⟩

theorem splitCh_replicate_slash (t : List Char) : ∀ k : Nat,
    splitCh '/' (List.replicate k '/' ++ t) =
      List.replicate k ([] : List Char) ++ splitCh '/' t := by
  intro k
  induction k with
  | zero => simp
  | succ n ih =>
    rw [List.replicate_succ, List.cons_append]
    rw [show splitCh '/' ('/' :: (List.replicate n '/' ++ t)) =
        [] :: splitCh '/' (List.replicate n '/' ++ t) from by simp [splitCh]]
    rw [ih, List.replicate_succ, List.cons_append]

theorem filter_replicate_nil_append (L : List (List Char)) : ∀ k : Nat,
    (List.replicate k ([] : List Char) ++ L).filter (· ≠ []) = L.filter (· ≠ []) := by
  intro k
  induction k with
  | zero => rfl
  | succ n ih =>
    rw [List.replicate_succ, List.cons_append, List.filter_cons]
    rw [if_neg (by simp)]
    exact ih

theorem filter_splitCh_slashes (N : List (List Char))
    (h : ∀ x ∈ N, x ≠ [] ∧ '/' ∉ x) (k : Nat) :
    (splitCh '/' (List.replicate (k + 1) '/' ++ interCh '/' N)).filter (· ≠ []) = N := by
  rw [splitCh_replicate_slash, filter_replicate_nil_append]
  cases N with
  | nil => rfl
  | cons y ys =>
    rw [splitCh_interCh '/' (y :: ys) (by simp) (fun x hx => (h x hx).2)]
    exact filter_ne_nil_eq _ (fun x hx => (h x hx).1)

theorem absCompsL_abs (cwd bl : List Char) (hb : pyIsAbsL bl = true) :
    absCompsL cwd bl = normLoop true [] (splitCh '/' bl) := by
  have hne : bl ≠ [] := by
    intro h
    rw [h] at hb
    simp [pyIsAbsL, isPfx] at hb
  have hgood : ∀ x ∈ normLoop true [] (splitCh '/' bl), x ≠ [] ∧ '/' ∉ x := by
    intro x hx
    rcases normLoop_mem _ _ _ hx with h1 | ⟨h2, h3, _⟩
    · exact absurd h1 (List.not_mem_nil _)
    · exact ⟨h3, splitCh_no_slash h2⟩
  unfold absCompsL pyAbspathL pyNormpathL
  rw [if_pos hb, if_neg hne]
  simp only [hb, if_true]
  by_cases h2 : (isPfx ['/', '/'] bl && !isPfx ['/', '/', '/'] bl) = true
  · rw [if_pos h2]
    rw [show (decide ((2 : Nat) ≠ 0)) = true from rfl]
    rw [if_neg (show ¬ (List.replicate 2 '/' ++
        interCh '/' (normLoop true [] (splitCh '/' bl)) = []) from by simp)]
    exact filter_splitCh_slashes _ hgood 1
  · rw [if_neg h2]
    rw [show (decide ((1 : Nat) ≠ 0)) = true from rfl]
    rw [if_neg (show ¬ (List.replicate 1 '/' ++
        interCh '/' (normLoop true [] (splitCh '/' bl)) = []) from by simp)]
    exact filter_splitCh_slashes _ hgood 0

theorem normpath_join_comps (dl : List (List Char)) (hdl : CleanComps dl)
    (bl : List Char) (hb : pyIsAbsL bl = false) :
    normLoop true [] (splitCh '/' (pyJoinL (mkAbs dl).toList bl)) =
      normLoop true dl (splitCh '/' bl) := by
  rw [pyJoinL_mkAbs dl hdl bl hb]
  cases dl with
  | nil =>
    rw [if_pos rfl]
    rw [show splitCh '/' ('/' :: bl) = [] :: splitCh '/' bl from by simp [splitCh]]
    rw [show normLoop true [] ([] :: splitCh '/' bl) = normLoop true [] (splitCh '/' bl)
      from by simp [normLoop]]
  | cons x xs =>
    rw [if_neg (by simp)]
    rw [show splitCh '/' ('/' :: (interCh '/' (x :: xs) ++ '/' :: bl)) =
        [] :: splitCh '/' (interCh '/' (x :: xs) ++ '/' :: bl) from by simp [splitCh]]
    rw [splitCh_append_sep]
    rw [splitCh_interCh '/' (x :: xs) (by simp) (fun z hz => (hdl z hz).2.2.2)]
    rw [show normLoop true [] ([] :: (x :: xs ++ splitCh '/' bl)) =
        normLoop true [] (x :: xs ++ splitCh '/' bl) from by simp [normLoop]]
    rw [normLoop_append]
    rw [normLoop_clean_app true (x :: xs)
      (fun z hz => ⟨(hdl z hz).1, (hdl z hz).2.1, (hdl z hz).2.2.1⟩) []]
    rfl

theorem absCompsL_join_rel (cwd : List Char) (dl : List (List Char))
    (hdl : CleanComps dl) (bl : List Char) (hb : pyIsAbsL bl = false) :
    absCompsL cwd (pyJoinL (mkAbs dl).toList bl) = normLoop true dl (splitCh '/' bl) := by
  have habs : pyIsAbsL (pyJoinL (mkAbs dl).toList bl) = true :=
    (pyJoin_mkAbs_single_slash dl hdl bl hb).1
  rw [absCompsL_abs cwd _ habs, normpath_join_comps dl hdl bl hb]

/-- The nonempty components that the relpath computation of `fixRelPath`
resolves `b` to, when the manifest and target directory are both `mkAbs dl`. -/
def plOf (dl : List (List Char)) (bl : List Char) : List (List Char) :=
  normLoop true (if pyIsAbsL bl = true then [] else dl) (splitCh '/' bl)

theorem plOf_mem {dl : List (List Char)} {bl x : List Char}
    (hx : x ∈ plOf dl bl) : x ∈ dl ∨ (x ∈ splitCh '/' bl ∧ x ≠ [] ∧ x ≠ ['.']) := by
  unfold plOf at hx
  rcases normLoop_mem _ _ _ hx with h1 | h2
  · split at h1
    · exact absurd h1 (List.not_mem_nil _)
    · exact Or.inl h1
  · exact Or.inr h2

theorem plOf_good {dl : List (List Char)} (hdl : CleanComps dl) (bl : List Char) :
    CleanComps (plOf dl bl) := by
  intro x hx
  have hacc : ['.', '.'] ∉ (if pyIsAbsL bl = true then ([] : List (List Char)) else dl) := by
    split
    · exact List.not_mem_nil _
    · exact fun hm => (hdl _ hm).2.2.1 rfl
  have hnp : x ≠ ['.', '.'] := by
    intro he
    subst he
    unfold plOf at hx
    exact normLoop_no_pardir _ _ hacc hx
  rcases plOf_mem hx with h1 | ⟨h2, h3, h4⟩
  · exact hdl x h1
  · exact ⟨h3, h4, hnp, splitCh_no_slash h2⟩

theorem absCompsL_mkAbs_join (cwd : List Char) (dl : List (List Char))
    (hdl : CleanComps dl) (bl : List Char) :
    absCompsL cwd (pyJoinL (mkAbs dl).toList bl) = plOf dl bl := by
  cases hb : pyIsAbsL bl with
  | true =>
    rw [show pyJoinL (mkAbs dl).toList bl = bl from by unfold pyJoinL; rw [if_pos hb]]
    rw [absCompsL_abs cwd bl hb]
    unfold plOf
    rw [if_pos hb]
  | false =>
    rw [absCompsL_join_rel cwd dl hdl bl hb]
    unfold plOf
    rw [hb, if_neg (fun h => Bool.noConfusion h)]

theorem normLoop_splitCh_slash_inter (pl : List (List Char)) (hpl : CleanComps pl) :
    normLoop true [] (splitCh '/' ('/' :: interCh '/' pl)) = pl := by
  rw [show splitCh '/' ('/' :: interCh '/' pl) = [] :: splitCh '/' (interCh '/' pl)
    from by simp [splitCh]]
  rw [show normLoop true [] ([] :: splitCh '/' (interCh '/' pl)) =
      normLoop true [] (splitCh '/' (interCh '/' pl)) from by simp [normLoop]]
  cases pl with
  | nil => rfl
  | cons x xs =>
    rw [splitCh_interCh '/' (x :: xs) (by simp) (fun z hz => (hpl z hz).2.2.2)]
    rw [normLoop_clean_app true (x :: xs)
      (fun z hz => ⟨(hpl z hz).1, (hpl z hz).2.1, (hpl z hz).2.2.1⟩) []]
    rfl

theorem absCompsL_mkAbs (cwd : List Char) (dl : List (List Char))
    (hdl : CleanComps dl) : absCompsL cwd (mkAbs dl).toList = dl := by
  have habs : pyIsAbsL (mkAbs dl).toList = true := by
    rw [mkAbs_toList]
    simp [pyIsAbsL, isPfx]
  rw [absCompsL_abs cwd _ habs, mkAbs_toList, normLoop_splitCh_slash_inter dl hdl]

/-- The character string produced by `relpath(join(D, b), D)` for
`D = mkAbs dl`, as a function of the resolved components `pl`. -/
def relOut (dl pl : List (List Char)) : List Char :=
  if List.replicate (dl.length - commonPrefixLen dl pl) ['.', '.'] ++
      pl.drop (commonPrefixLen dl pl) = [] then ['.']
  else
    interCh '/' (List.replicate (dl.length - commonPrefixLen dl pl) ['.', '.'] ++
      pl.drop (commonPrefixLen dl pl))

theorem mem_rel_decomp {dl pl : List (List Char)} {x : List Char}
    (hx : x ∈ List.replicate (dl.length - commonPrefixLen dl pl) ['.', '.'] ++
      pl.drop (commonPrefixLen dl pl)) :
    x = ['.', '.'] ∨ x ∈ pl := by
  rcases List.mem_append.mp hx with h | h
  · exact Or.inl (List.eq_of_mem_replicate h)
  · exact Or.inr (List.drop_subset _ _ h)

theorem relOut_ne_nil {dl pl : List (List Char)} (hpl : CleanComps pl) :
    relOut dl pl ≠ [] := by
  unfold relOut
  split
  · simp
  · next hrel =>
    refine interCh_ne_nil hrel ?_
    intro x hx
    rcases mem_rel_decomp hx with h | h
    · rw [h]
      simp
    · exact (hpl x h).1

theorem relOut_headD (dl : List (List Char)) {pl : List (List Char)}
    (hpl : CleanComps pl) :
    (relOut dl pl).headD ' ' = '.' ∨
      ∃ x ∈ pl, x ≠ [] ∧ (relOut dl pl).headD ' ' = x.headD ' ' := by
  unfold relOut
  cases hk : dl.length - commonPrefixLen dl pl with
  | succ n =>
    rw [List.replicate_succ, List.cons_append]
    rw [if_neg (by simp)]
    rw [interCh_headD '/' ' ' ['.', '.'] _ (by simp)]
    exact Or.inl rfl
  | zero =>
    simp only [List.replicate_zero, List.nil_append]
    cases hd : pl.drop (commonPrefixLen dl pl) with
    | nil =>
      rw [if_pos rfl]
      exact Or.inl rfl
    | cons y ys =>
      rw [if_neg (by simp)]
      have hy : y ∈ pl := List.drop_subset _ _ (by rw [hd]; exact List.mem_cons_self _ _)
      rw [interCh_headD '/' ' ' y ys (hpl y hy).1]
      exact Or.inr ⟨y, hy, (hpl y hy).1, rfl⟩

theorem relOut_not_abs {dl pl : List (List Char)} (hpl : CleanComps pl) :
    pyIsAbsL (relOut dl pl) = false := by
  refine pyIsAbsL_false_of_head _ ?_
  rcases relOut_headD dl hpl with h | ⟨x, hx, hxne, h⟩
  · rw [h]
    decide
  · rw [h]
    cases x with
    | nil => exact absurd rfl hxne
    | cons c cs =>
      rw [List.headD_cons]
      intro he
      refine (hpl _ hx).2.2.2 ?_
      rw [← he]
      exact List.mem_cons_self _ _

theorem relOut_head_ne_plus {dl pl : List (List Char)} (hpl : CleanComps pl)
    (hheads : ∀ x ∈ pl, x.headD ' ' ≠ '+') :
    (relOut dl pl).headD ' ' ≠ '+' := by
  rcases relOut_headD dl hpl with h | ⟨x, hx, _, h⟩
  · rw [h]
    decide
  · rw [h]
    exact hheads x hx

theorem relOut_colon_free {dl pl : List (List Char)} (hplc : ∀ x ∈ pl, ':' ∉ x) :
    ':' ∉ relOut dl pl := by
  unfold relOut
  split
  · decide
  · intro hm
    rcases interCh_mem_chars hm with h | ⟨x, hx, hcx⟩
    · exact absurd h (by decide)
    · rcases mem_rel_decomp hx with h2 | h2
      · rw [h2] at hcx
        exact absurd hcx (by decide)
      · exact hplc x h2 hcx

theorem colon_free_slash_inter {pl : List (List Char)} (hplc : ∀ x ∈ pl, ':' ∉ x) :
    ':' ∉ '/' :: interCh '/' pl := by
  intro hm
  rcases List.mem_cons.mp hm with h | h
  · exact absurd h (by decide)
  · rcases interCh_mem_chars h with h2 | ⟨x, hx, hcx⟩
    · exact absurd h2 (by decide)
    · exact hplc x hx hcx

theorem normLoop_dl_relOut (dl pl : List (List Char)) (hdl : CleanComps dl)
    (hpl : CleanComps pl) :
    normLoop true dl (splitCh '/' (relOut dl pl)) = pl := by
  have hile : commonPrefixLen dl pl ≤ dl.length := commonPrefixLen_le_left dl pl
  unfold relOut
  split
  · next hrel =>
    obtain ⟨hrep, hdrop⟩ := List.append_eq_nil.mp hrel
    have hk0 : dl.length - commonPrefixLen dl pl = 0 := by
      by_contra hne
      rw [show dl.length - commonPrefixLen dl pl =
          (dl.length - commonPrefixLen dl pl - 1) + 1 from by omega] at hrep
      rw [List.replicate_succ] at hrep
      exact List.noConfusion hrep
    have hieq : commonPrefixLen dl pl = dl.length := by omega
    have hple : pl.length ≤ commonPrefixLen dl pl := List.drop_eq_nil_iff.mp hdrop
    have hieq2 : commonPrefixLen dl pl = pl.length :=
      Nat.le_antisymm (commonPrefixLen_le_right dl pl) hple
    have hdleq : dl = pl := by
      have h3 := commonPrefixLen_take dl pl
      rw [hieq, List.take_length] at h3
      rw [show dl.length = pl.length from by omega, List.take_length] at h3
      exact h3
    rw [show splitCh '/' ['.'] = [['.']] from rfl]
    rw [show normLoop true dl [['.']] = normLoop true dl [] from by simp [normLoop]]
    rw [show normLoop true dl ([] : List (List Char)) = dl from rfl]
    exact hdleq
  · next hrel =>
    rw [splitCh_interCh '/' _ hrel ?slashfree]
    case slashfree =>
      intro x hx
      rcases mem_rel_decomp hx with h | h
      · rw [h]
        decide
      · exact (hpl x h).2.2.2
    rw [normLoop_append]
    rw [normLoop_popAll (dl.length - commonPrefixLen dl pl) dl
      (fun hm => (hdl _ hm).2.2.1 rfl) (Nat.sub_le _ _)]
    rw [Nat.sub_sub_self hile]
    rw [commonPrefixLen_take dl pl]
    rw [normLoop_clean_app true (pl.drop (commonPrefixLen dl pl))
      (fun z hz => ⟨(hpl z (List.drop_subset _ _ hz)).1,
        (hpl z (List.drop_subset _ _ hz)).2.1,
        (hpl z (List.drop_subset _ _ hz)).2.2.1⟩)
      (pl.take (commonPrefixLen dl pl))]
    exact List.take_append_drop _ _

theorem relpath_eval (cwd : String) (dl : List (List Char)) (hdl : CleanComps dl)
    (b : String) :
    pyRelpath cwd (pyJoin (mkAbs dl) b) (mkAbs dl) =
      String.mk (relOut dl (plOf dl b.toList)) := by
  unfold pyRelpath pyRelpathL
  rw [show (pyJoin (mkAbs dl) b).toList = pyJoinL (mkAbs dl).toList b.toList from rfl]
  rw [absCompsL_mkAbs_join cwd.toList dl hdl b.toList]
  rw [absCompsL_mkAbs cwd.toList dl hdl]
  rfl

theorem abspathL_mkAbs_rel (dl : List (List Char)) (hdl : CleanComps dl)
    (bl : List Char) (hb : pyIsAbsL bl = false) :
    pyAbspathL (mkAbs dl).toList bl =
      '/' :: interCh '/' (normLoop true dl (splitCh '/' bl)) := by
  unfold pyAbspathL
  rw [if_neg (by simp [hb])]
  obtain ⟨habs, hss⟩ := pyJoin_mkAbs_single_slash dl hdl bl hb
  rw [pyNormpathL_one_slash _ habs hss]
  rw [normpath_join_comps dl hdl bl hb]

/-- The path-normalization tail of `fixRelPath` (lines 222-224), with the
manifest directory and the target directory both equal to `mkAbs dl`. -/
def normAt (o : Opts) (cwd : String) (dl : List (List Char)) (b : String) : String :=
  if o.abs then pyAbspath cwd (pyRelpath cwd (pyJoin (mkAbs dl) b) (mkAbs dl))
  else pyRelpath cwd (pyJoin (mkAbs dl) b) (mkAbs dl)

theorem normAt_rel (o : Opts) (ho : o.abs = false) (cwd : String)
    (dl : List (List Char)) (hdl : CleanComps dl) (b : String) :
    normAt o cwd dl b = String.mk (relOut dl (plOf dl b.toList)) := by
  unfold normAt
  rw [if_neg (by simp [ho])]
  exact relpath_eval cwd dl hdl b

theorem plOf_of_not_abs {dl : List (List Char)} {bl : List Char}
    (hb : pyIsAbsL bl = false) : plOf dl bl = normLoop true dl (splitCh '/' bl) := by
  unfold plOf
  rw [hb, if_neg (fun h => Bool.noConfusion h)]

theorem plOf_of_abs {dl : List (List Char)} {bl : List Char}
    (hb : pyIsAbsL bl = true) : plOf dl bl = normLoop true [] (splitCh '/' bl) := by
  unfold plOf
  rw [if_pos hb]

theorem normAt_abs (o : Opts) (ho : o.abs = true) (cwd : String)
    (dl : List (List Char)) (hdl : CleanComps dl) (hcwd : cwd = mkAbs dl)
    (b : String) : normAt o cwd dl b = mkAbs (plOf dl b.toList) := by
  unfold normAt
  rw [if_pos ho]
  rw [relpath_eval cwd dl hdl b]
  subst hcwd
  show String.mk (pyAbspathL (mkAbs dl).toList
      (String.mk (relOut dl (plOf dl b.toList))).toList) = mkAbs (plOf dl b.toList)
  rw [toList_mk (relOut dl (plOf dl b.toList))]
  rw [abspathL_mkAbs_rel dl hdl _ (relOut_not_abs (plOf_good hdl b.toList))]
  rw [normLoop_dl_relOut dl _ hdl (plOf_good hdl b.toList)]
  rfl

theorem normAt_idem (o : Opts) (cwd : String) (dl : List (List Char))
    (hdl : CleanComps dl) (hcwd : o.abs = true → cwd = mkAbs dl) (b : String) :
    normAt o cwd dl (normAt o cwd dl b) = normAt o cwd dl b := by
  cases ho : o.abs with
  | false =>
    rw [normAt_rel o ho cwd dl hdl b]
    rw [normAt_rel o ho cwd dl hdl (String.mk (relOut dl (plOf dl b.toList)))]
    rw [toList_mk (relOut dl (plOf dl b.toList))]
    rw [plOf_of_not_abs (relOut_not_abs (plOf_good hdl b.toList))]
    rw [normLoop_dl_relOut dl _ hdl (plOf_good hdl b.toList)]
  | true =>
    rw [normAt_abs o ho cwd dl hdl (hcwd ho) b]
    rw [normAt_abs o ho cwd dl hdl (hcwd ho) (mkAbs (plOf dl b.toList))]
    rw [mkAbs_toList (plOf dl b.toList)]
    rw [plOf_of_abs (by simp [pyIsAbsL, isPfx])]
    rw [normLoop_splitCh_slash_inter _ (plOf_good hdl b.toList)]

theorem absCompsL_join_normAt (o : Opts) (cwd : String) (dl : List (List Char))
    (hdl : CleanComps dl) (hcwd : o.abs = true → cwd = mkAbs dl) (b : String) :
    absCompsL cwd.toList (pyJoinL (mkAbs dl).toList (normAt o cwd dl b).toList) =
      plOf dl b.toList := by
  cases ho : o.abs with
  | false =>
    rw [normAt_rel o ho cwd dl hdl b]
    rw [toList_mk (relOut dl (plOf dl b.toList))]
    rw [absCompsL_join_rel cwd.toList dl hdl _ (relOut_not_abs (plOf_good hdl b.toList))]
    exact normLoop_dl_relOut dl _ hdl (plOf_good hdl b.toList)
  | true =>
    rw [normAt_abs o ho cwd dl hdl (hcwd ho) b]
    rw [mkAbs_toList (plOf dl b.toList)]
    have habs : pyIsAbsL ('/' :: interCh '/' (plOf dl b.toList)) = true := by
      simp [pyIsAbsL, isPfx]
    rw [show pyJoinL (mkAbs dl).toList ('/' :: interCh '/' (plOf dl b.toList)) =
        '/' :: interCh '/' (plOf dl b.toList) from by unfold pyJoinL; rw [if_pos habs]]
    rw [absCompsL_abs cwd.toList _ habs]
    exact normLoop_splitCh_slash_inter _ (plOf_good hdl b.toList)

theorem fixRelPath_len0 (o : Opts) (isd : String → Bool) (cwd c cd td : String)
    (h : c.length = 0) : fixRelPath o isd cwd c cd td = c := by
  unfold fixRelPath
  rw [if_pos h]

theorem fixRelPath_define (o : Opts) (isd : String → Bool) (cwd c cd td : String)
    (h0 : ¬ c.length = 0) (hd : strStarts c "+define+" = true) :
    fixRelPath o isd cwd c cd td = c := by
  unfold fixRelPath
  rw [if_neg h0, if_pos hd]

theorem fixRelPath_incdir (o : Opts) (isd : String → Bool) (cwd c : String)
    (dl : List (List Char))
    (h0 : ¬ c.length = 0) (hdf : strStarts c "+define+" = false)
    (hin : strStarts c "+incdir+" = true) :
    fixRelPath o isd cwd c (mkAbs dl) (mkAbs dl) =
      "+incdir+" ++ normAt o cwd dl (strDropN c 8) := by
  unfold fixRelPath normAt
  rw [if_neg h0, if_neg (by simp [hdf]), if_pos hin]

theorem fixRelPath_cmd (o : Opts) (isd : String → Bool) (cwd c hd tl : String)
    (dl : List (List Char))
    (h0 : ¬ c.length = 0) (hdf : strStarts c "+define+" = false)
    (hin : strStarts c "+incdir+" = false)
    (hsp : strSplitFirst ':' c = some (hd, tl)) :
    fixRelPath o isd cwd c (mkAbs dl) (mkAbs dl) =
      (hd ++ ":") ++ normAt o cwd dl tl := by
  unfold fixRelPath normAt
  rw [if_neg h0, if_neg (by simp [hdf]), if_neg (by simp [hin]), hsp]

theorem fixRelPath_bare (o : Opts) (isd : String → Bool) (cwd c : String)
    (dl : List (List Char))
    (h0 : ¬ c.length = 0) (hdf : strStarts c "+define+" = false)
    (hin : strStarts c "+incdir+" = false)
    (hsp : strSplitFirst ':' c = none) :
    fixRelPath o isd cwd c (mkAbs dl) (mkAbs dl) =
      (if isd (pyJoin (mkAbs dl) c) then "+incdir+" else "") ++ normAt o cwd dl c := by
  unfold fixRelPath normAt
  rw [if_neg h0, if_neg (by simp [hdf]), if_neg (by simp [hin]), hsp]

theorem second_run_incdir (o : Opts) (isd : String → Bool) (cwd : String)
    (dl : List (List Char)) (hdl : CleanComps dl)
    (hcwd : o.abs = true → cwd = mkAbs dl) (b : String) :
    fixRelPath o isd cwd ("+incdir+" ++ normAt o cwd dl b) (mkAbs dl) (mkAbs dl) =
      "+incdir+" ++ normAt o cwd dl b := by
  set q := normAt o cwd dl b with hq
  have hlist : ("+incdir+" ++ q).toList = "+incdir+".toList ++ q.toList :=
    strToList_append _ _
  have h0 : ¬ ("+incdir+" ++ q).length = 0 := by
    rw [strLen_toList, hlist]
    simp
  have hdf : strStarts ("+incdir+" ++ q) "+define+" = false := by
    unfold strStarts
    rw [hlist, isPfx_append_of_le (by decide) q.toList]
    decide
  have hin : strStarts ("+incdir+" ++ q) "+incdir+" = true := by
    unfold strStarts
    rw [hlist]
    exact isPfx_append_self _ _
  have hdrop : strDropN ("+incdir+" ++ q) 8 = q := by
    unfold strDropN
    rw [hlist, show (8 : Nat) = ("+incdir+".toList).length from by decide,
      List.drop_left, strMk_toList]
  rw [fixRelPath_incdir o isd cwd ("+incdir+" ++ q) dl h0 hdf hin, hdrop, hq]
  rw [normAt_idem o cwd dl hdl hcwd b]

instance goodCompDec (x : List Char) : Decidable (goodComp x) := by
  unfold goodComp
  infer_instance

instance cleanCompsDec (l : List (List Char)) : Decidable (CleanComps l) := by
  unfold CleanComps
  infer_instance

/-- C4, counterexample: normalization by `fixRelPath` is not idempotent for
every (manifest dir, target dir) pair.  With manifest directory `/a` and
target directory `/a/b`, the bare entry `x` normalizes to `../x`, and
re-normalizing `../x` against the same pair yields `../../x`. -/
theorem fixRelPath_not_idempotent :
    fixRelPath {} (fun _ => false) "/"
        (fixRelPath {} (fun _ => false) "/" "x" "/a" "/a/b") "/a" "/a/b" ≠
      fixRelPath {} (fun _ => false) "/" "x" "/a" "/a/b" := by decide

/-- C4, amended: `fixRelPath` is a deterministic function of the entry, the
two directories, the mode flag, the directory oracle and the working
directory, and it is idempotent when the manifest directory and the target
directory coincide (a normalized absolute directory `mkAbs dl` whose
components contain no colon and do not begin with `+`; entries reaching the
bare branch likewise have no component beginning with `+`; the directory
oracle depends only on the resolved path; in `--abs` mode the working
directory is that same directory). -/
theorem fixRelPath_idem_same_dir (o : Opts) (isd : String → Bool) (cwd : String)
    (dl : List (List Char)) (c : String)
    (hdl : CleanComps dl)
    (htame : ∀ x ∈ dl, ':' ∉ x ∧ x.headD ' ' ≠ '+')
    (hbare : strStarts c "+define+" = false → strStarts c "+incdir+" = false →
      strSplitFirst ':' c = none → ∀ x ∈ splitCh '/' c.toList, x.headD ' ' ≠ '+')
    (hiso : ∀ s t : String,
      absCompsL cwd.toList s.toList = absCompsL cwd.toList t.toList → isd s = isd t)
    (hcwd : o.abs = true → cwd = mkAbs dl) :
    fixRelPath o isd cwd (fixRelPath o isd cwd c (mkAbs dl) (mkAbs dl))
        (mkAbs dl) (mkAbs dl) =
      fixRelPath o isd cwd c (mkAbs dl) (mkAbs dl) := by
  by_cases h0 : c.length = 0
  · rw [fixRelPath_len0 o isd cwd c (mkAbs dl) (mkAbs dl) h0]
    exact fixRelPath_len0 o isd cwd c (mkAbs dl) (mkAbs dl) h0
  · cases hdf : strStarts c "+define+" with
    | true =>
      rw [fixRelPath_define o isd cwd c (mkAbs dl) (mkAbs dl) h0 hdf]
      exact fixRelPath_define o isd cwd c (mkAbs dl) (mkAbs dl) h0 hdf
    | false =>
      cases hin : strStarts c "+incdir+" with
      | true =>
        rw [fixRelPath_incdir o isd cwd c dl h0 hdf hin]
        exact second_run_incdir o isd cwd dl hdl hcwd (strDropN c 8)
      | false =>
        cases hsp : strSplitFirst ':' c with
        | some pr =>
          obtain ⟨hd, tl⟩ := pr
          rw [fixRelPath_cmd o isd cwd c hd tl dl h0 hdf hin hsp]
          obtain ⟨hdmem, hceq⟩ := strSplitFirst_some ':' c hd tl hsp
          have hlist : ((hd ++ ":") ++ normAt o cwd dl tl).toList =
              hd.toList ++ ':' :: (normAt o cwd dl tl).toList := by
            rw [strToList_append, strToList_append, List.append_assoc]
            rfl
          have h0b : ¬ ((hd ++ ":") ++ normAt o cwd dl tl).length = 0 := by
            rw [strLen_toList, hlist]
            simp
          have hdfb : strStarts ((hd ++ ":") ++ normAt o cwd dl tl) "+define+" = false := by
            unfold strStarts
            rw [hlist]
            refine isPfx_false_append_of_not_mem (by decide) ?_ _
            cases hpf : isPfx ("+define+".toList) hd.toList with
            | false => rfl
            | true =>
              exfalso
              have h2 : strStarts c "+define+" = true := by
                unfold strStarts
                rw [hceq]
                exact isPfx_true_append hpf _
              rw [hdf] at h2
              exact Bool.noConfusion h2
          have hinb : strStarts ((hd ++ ":") ++ normAt o cwd dl tl) "+incdir+" = false := by
            unfold strStarts
            rw [hlist]
            refine isPfx_false_append_of_not_mem (by decide) ?_ _
            cases hpf : isPfx ("+incdir+".toList) hd.toList with
            | false => rfl
            | true =>
              exfalso
              have h2 : strStarts c "+incdir+" = true := by
                unfold strStarts
                rw [hceq]
                exact isPfx_true_append hpf _
              rw [hin] at h2
              exact Bool.noConfusion h2
          have hspb : strSplitFirst ':' ((hd ++ ":") ++ normAt o cwd dl tl) =
              some (hd, normAt o cwd dl tl) := by
            unfold strSplitFirst
            rw [hlist, splitFirst_append_sep ':' hd.toList _ hdmem]
            rfl
          rw [fixRelPath_cmd o isd cwd ((hd ++ ":") ++ normAt o cwd dl tl) hd
            (normAt o cwd dl tl) dl h0b hdfb hinb hspb]
          rw [normAt_idem o cwd dl hdl hcwd tl]
        | none =>
          have hdc : ':' ∉ c.toList := strSplitFirst_none ':' c hsp
          have hbt : ∀ x ∈ splitCh '/' c.toList, x.headD ' ' ≠ '+' := hbare hdf hin hsp
          have hplg : CleanComps (plOf dl c.toList) := plOf_good hdl c.toList
          have hheads : ∀ x ∈ plOf dl c.toList, x.headD ' ' ≠ '+' := by
            intro x hx
            rcases plOf_mem hx with h | ⟨h, _, _⟩
            · exact (htame x h).2
            · exact hbt x h
          have hplc : ∀ x ∈ plOf dl c.toList, ':' ∉ x := by
            intro x hx
            rcases plOf_mem hx with h | ⟨h, _, _⟩
            · exact (htame x h).1
            · exact fun hm => hdc (splitCh_mem_chars h hm)
          have hq3 : (normAt o cwd dl c).toList.headD ' ' ≠ '+' ∧
              (normAt o cwd dl c).toList ≠ [] ∧ ':' ∉ (normAt o cwd dl c).toList := by
            cases ho : o.abs with
            | false =>
              rw [normAt_rel o ho cwd dl hdl c, toList_mk (relOut dl (plOf dl c.toList))]
              exact ⟨relOut_head_ne_plus hplg hheads, relOut_ne_nil hplg,
                relOut_colon_free hplc⟩
            | true =>
              rw [normAt_abs o ho cwd dl hdl (hcwd ho) c, mkAbs_toList (plOf dl c.toList)]
              refine ⟨by rw [List.headD_cons]; decide, by simp, colon_free_slash_inter hplc⟩
          have h0b : ¬ (normAt o cwd dl c).length = 0 := by
            rw [strLen_toList]
            intro h
            exact hq3.2.1 (List.length_eq_zero.mp h)
          have hdfb : strStarts (normAt o cwd dl c) "+define+" = false :=
            strStarts_plus_false _ "+define+" (by decide) hq3.1
          have hinb : strStarts (normAt o cwd dl c) "+incdir+" = false :=
            strStarts_plus_false _ "+incdir+" (by decide) hq3.1
          have hspb : strSplitFirst ':' (normAt o cwd dl c) = none := by
            unfold strSplitFirst
            rw [splitFirst_none_of_not_mem ':' _ hq3.2.2]
          rw [fixRelPath_bare o isd cwd c dl h0 hdf hin hsp]
          cases hisd : isd (pyJoin (mkAbs dl) c) with
          | true =>
            rw [if_pos rfl]
            exact second_run_incdir o isd cwd dl hdl hcwd c
          | false =>
            rw [if_neg (fun h => Bool.noConfusion h)]
            rw [strEmpty_append]
            have hisdb : isd (pyJoin (mkAbs dl) (normAt o cwd dl c)) = false := by
              have hcomps : absCompsL cwd.toList
                  (pyJoin (mkAbs dl) (normAt o cwd dl c)).toList =
                  absCompsL cwd.toList (pyJoin (mkAbs dl) c).toList := by
                rw [show (pyJoin (mkAbs dl) (normAt o cwd dl c)).toList =
                    pyJoinL (mkAbs dl).toList (normAt o cwd dl c).toList from rfl]
                rw [show (pyJoin (mkAbs dl) c).toList =
                    pyJoinL (mkAbs dl).toList c.toList from rfl]
                rw [absCompsL_join_normAt o cwd dl hdl hcwd c]
                rw [absCompsL_mkAbs_join cwd.toList dl hdl c.toList]
              rw [hiso _ _ hcomps]
              exact hisd
            rw [fixRelPath_bare o isd cwd (normAt o cwd dl c) dl h0b hdfb hinb hspb]
            rw [hisdb, if_neg (fun h => Bool.noConfusion h), strEmpty_append]
            exact normAt_idem o cwd dl hdl hcwd c

theorem fixRelPath_idem_same_dir_witness :
    CleanComps [['a']] ∧
    (∀ x ∈ [['a']], ':' ∉ x ∧ x.headD ' ' ≠ '+') ∧
    fixRelPath {} (fun _ => false) "/"
        (fixRelPath {} (fun _ => false) "/" "x" (mkAbs [['a']]) (mkAbs [['a']]))
        (mkAbs [['a']]) (mkAbs [['a']]) =
      fixRelPath {} (fun _ => false) "/" "x" (mkAbs [['a']]) (mkAbs [['a']]) :=
  ⟨by decide, by decide,
   fixRelPath_idem_same_dir {} (fun _ => false) "/" [['a']] "x" (by decide) (by decide)
     (fun _ _ _ => by decide) (fun s t h => rfl) (fun h => absurd h (by decide))⟩

theorem takeWhile_append_all (f : Char → Bool) (l1 l2 : List Char)
    (h : ∀ x ∈ l1, f x = true) :
    (l1 ++ l2).takeWhile f = l1 ++ l2.takeWhile f := by
  induction l1 with
  | nil => rfl
  | cons c cs ih =>
    have hc : f c = true := h c (List.mem_cons_self _ _)
    rw [List.cons_append]
    rw [show (c :: (cs ++ l2)).takeWhile f = c :: (cs ++ l2).takeWhile f from by
      simp [List.takeWhile_cons, hc]]
    rw [ih (fun x hx => h x (List.mem_cons_of_mem _ hx))]
    rfl

theorem dropWhile_append_stop (f : Char → Bool) (l1 : List Char) (x : Char)
    (l2 : List Char) (hx : f x = false) :
    (l1 ++ x :: l2).dropWhile f = l1.dropWhile f ++ x :: l2 := by
  induction l1 with
  | nil =>
    simp only [List.nil_append]
    rw [show (x :: l2).dropWhile f = x :: l2 from by simp [List.dropWhile_cons, hx]]
    rfl
  | cons c cs ih =>
    rw [List.cons_append]
    cases hc : f c with
    | true =>
      rw [show (c :: (cs ++ x :: l2)).dropWhile f = (cs ++ x :: l2).dropWhile f from by
        simp [List.dropWhile_cons, hc]]
      rw [show (c :: cs).dropWhile f = cs.dropWhile f from by
        simp [List.dropWhile_cons, hc]]
      exact ih
    | false =>
      rw [show (c :: (cs ++ x :: l2)).dropWhile f = c :: (cs ++ x :: l2) from by
        simp [List.dropWhile_cons, hc]]
      rw [show (c :: cs).dropWhile f = c :: cs from by
        simp [List.dropWhile_cons, hc]]
      rfl

theorem drop_len_append {α : Type} (l1 l2 : List α) (k : Nat) :
    (l1 ++ l2).drop (l1.length + k) = l2.drop k := by
  induction l1 with
  | nil => rw [List.nil_append, List.length_nil, Nat.zero_add]
  | cons c cs ih =>
    rw [List.cons_append, List.length_cons]
    rw [show cs.length + 1 + k = (cs.length + k) + 1 from by omega]
    rw [List.drop_succ_cons]
    exact ih

theorem isPyWs_props (ch : Char) (h : isPyWs ch = true) :
    ch ≠ '.' ∧ ch ≠ '/' ∧ ch ≠ ':' ∧ ch ≠ '#' ∧ ch ≠ '+' ∧ Char.toLower ch = ch := by
  simp only [isPyWs, Bool.or_eq_true, beq_iff_eq] at h
  rcases h with ((((h | h) | h) | h) | h) | h <;> subst h <;> decide

theorem map_toLower_ws (w : List Char) (h : ∀ ch ∈ w, isPyWs ch = true) :
    w.map Char.toLower = w := by
  induction w with
  | nil => rfl
  | cons c cs ih =>
    rw [List.map_cons, (isPyWs_props c (h c (List.mem_cons_self _ _))).2.2.2.2.2,
      ih (fun x hx => h x (List.mem_cons_of_mem _ hx))]

theorem pySplitextExtL_append_ws (p w : List Char)
    (hw1 : '/' ∉ w) (hw2 : '.' ∉ w) (hp : pySplitextExtL p ≠ []) :
    pySplitextExtL (p ++ w) = pySplitextExtL p ++ w := by
  have hwr1 : ∀ x ∈ w.reverse, (!(x == '/')) = true := by
    intro x hx
    have hxw : x ∈ w := List.mem_reverse.mp hx
    have hb : (x == '/') = false := beq_eq_false_iff_ne.mpr (fun he => hw1 (he ▸ hxw))
    rw [hb]
    rfl
  have hwr2 : ∀ x ∈ w.reverse, (!(x == '.')) = true := by
    intro x hx
    have hxw : x ∈ w := List.mem_reverse.mp hx
    have hb : (x == '.') = false := beq_eq_false_iff_ne.mpr (fun he => hw2 (he ▸ hxw))
    rw [hb]
    rfl
  simp only [pySplitextExtL, List.reverse_reverse] at hp ⊢
  rw [List.reverse_append]
  rw [takeWhile_append_all _ w.reverse p.reverse hwr1]
  rw [takeWhile_append_all _ w.reverse (p.reverse.takeWhile (fun c => !(c == '/'))) hwr2]
  by_cases hC1 : ((p.reverse.takeWhile (fun c => !(c == '/'))).takeWhile
      (fun c => !(c == '.'))).length = (p.reverse.takeWhile (fun c => !(c == '/'))).length
  · rw [if_pos hC1] at hp
    exact absurd rfl hp
  · rw [if_neg hC1] at hp
    by_cases hC2 : (((p.reverse.takeWhile (fun c => !(c == '/'))).drop
        (((p.reverse.takeWhile (fun c => !(c == '/'))).takeWhile
          (fun c => !(c == '.'))).length + 1)).reverse).any (fun c => !(c == '.')) = true
    · have hlen : ¬ ((w.reverse ++ (p.reverse.takeWhile (fun c => !(c == '/'))).takeWhile
          (fun c => !(c == '.'))).length =
          (w.reverse ++ p.reverse.takeWhile (fun c => !(c == '/'))).length) := by
        intro hcontra
        apply hC1
        rw [List.length_append, List.length_append] at hcontra
        omega
      rw [if_neg hlen, if_neg hC1]
      have hdrop : (w.reverse ++ p.reverse.takeWhile (fun c => !(c == '/'))).drop
          ((w.reverse ++ (p.reverse.takeWhile (fun c => !(c == '/'))).takeWhile
            (fun c => !(c == '.'))).length + 1) =
          (p.reverse.takeWhile (fun c => !(c == '/'))).drop
            (((p.reverse.takeWhile (fun c => !(c == '/'))).takeWhile
              (fun c => !(c == '.'))).length + 1) := by
        rw [List.length_append]
        rw [show w.reverse.length + ((p.reverse.takeWhile (fun c => !(c == '/'))).takeWhile
            (fun c => !(c == '.'))).length + 1 =
            w.reverse.length + (((p.reverse.takeWhile (fun c => !(c == '/'))).takeWhile
              (fun c => !(c == '.'))).length + 1) from by omega]
        exact drop_len_append _ _ _
      rw [hdrop]
      rw [if_pos hC2, if_pos hC2]
      rw [List.reverse_append, List.reverse_reverse]
      rfl
    · rw [if_neg hC2] at hp
      exact absurd rfl hp

theorem lineCooked_strip_first (p w m : List Char)
    (hpne : p ≠ []) (hph : isPyWs (p.headD ' ') = false)
    (hphash : '#' ∉ p) (hwall : ∀ ch ∈ w, isPyWs ch = true) :
    lineCooked (String.mk (p ++ w ++ '#' :: m)) = String.mk (p ++ w) := by
  unfold lineCooked
  rw [toList_mk (p ++ w ++ '#' :: m)]
  have hstrip : pyStripL (p ++ w ++ '#' :: m) =
      p ++ w ++ '#' :: (m.reverse.dropWhile isPyWs).reverse := by
    unfold pyStripL
    have h1 : (p ++ w ++ '#' :: m).dropWhile isPyWs = p ++ w ++ '#' :: m := by
      cases p with
      | nil => exact absurd rfl hpne
      | cons c cs =>
        simp only [List.headD_cons] at hph
        rw [List.cons_append, List.cons_append]
        rw [show (c :: ((cs ++ w) ++ '#' :: m)).dropWhile isPyWs =
            c :: ((cs ++ w) ++ '#' :: m) from by simp [List.dropWhile_cons, hph]]
    rw [h1]
    rw [show (p ++ w ++ '#' :: m).reverse =
        m.reverse ++ '#' :: (w.reverse ++ p.reverse) from by
      simp [List.reverse_append, List.append_assoc]]
    rw [dropWhile_append_stop isPyWs m.reverse '#' (w.reverse ++ p.reverse) (by decide)]
    simp [List.reverse_append, List.append_assoc]
  rw [hstrip]
  rw [splitCh_append_sep '#' (p ++ w) ((m.reverse.dropWhile isPyWs).reverse)]
  rw [splitCh_no_sep '#' (p ++ w) (by
    intro hm
    rcases List.mem_append.mp hm with h | h
    · exact hphash h
    · exact absurd (hwall '#' h) (by decide))]
  rfl

theorem splitext_ne_nil_of_valid (p : List Char)
    (hvalid : validateTag (String.mk p) = none) : pySplitextExtL p ≠ [] := by
  intro h
  have hext : extOf (String.mk p) = "" := by
    unfold extOf
    rw [toList_mk p, h]
    rfl
  have hu := (validateTag_none_iff (String.mk p)).mp hvalid
  rw [hext] at hu
  exact absurd hu (by decide)

theorem extOf_append_ws (p w : List Char) (hwall : ∀ ch ∈ w, isPyWs ch = true)
    (hvalid : validateTag (String.mk p) = none) :
    extOf (String.mk (p ++ w)) = String.mk ((extOf (String.mk p)).toList ++ w) := by
  unfold extOf
  rw [toList_mk (p ++ w), toList_mk p]
  rw [pySplitextExtL_append_ws p w
    (fun hm => absurd (hwall '/' hm) (by decide))
    (fun hm => absurd (hwall '.' hm) (by decide))
    (splitext_ne_nil_of_valid p hvalid)]
  unfold pyLower
  rw [toList_mk (pySplitextExtL p ++ w)]
  rw [List.map_append, map_toLower_ws w hwall]
  rw [toList_mk (pySplitextExtL p)]
  rw [toList_mk ((pySplitextExtL p).map Char.toLower)]

theorem lookup_ws_last_none (e : String) (c : Char)
    (hc : e.toList.getLast? = some c) (hws : isPyWs c = true) :
    ∀ tb : List (String × String),
      (tb.all fun kv => kv.1.toList.getLast?.map isPyWs == some false) = true →
      tb.lookup e = none := by
  intro tb
  induction tb with
  | nil => intro _; rfl
  | cons kv t ih =>
    intro hall
    obtain ⟨k, v⟩ := kv
    rw [List.all_cons, Bool.and_eq_true] at hall
    have hk : k.toList.getLast?.map isPyWs = some false := by
      have h1 := hall.1
      simpa using h1
    have hne : (e == k) = false := by
      refine beq_eq_false_iff_ne.mpr ?_
      intro he
      rw [← he, hc] at hk
      simp only [Option.map_some'] at hk
      rw [hws] at hk
      simp at hk
    show (match e == k with
      | true => some v
      | false => List.lookup e t) = none
    rw [hne]
    exact ih hall.2

theorem validateTag_ws_last (s : String) (c : Char)
    (hc : (extOf s).toList.getLast? = some c) (hws : isPyWs c = true) :
    validateTag s =
      some ("unrecognized file extension \x27" ++ extOf s ++ "\x27 (" ++ s ++ ")") := by
  have h1 := lookup_ws_last_none (extOf s) c hc hws quartus_tag_map (by decide)
  have h2 := lookup_ws_last_none (extOf s) c hc hws qsys_tag_map (by decide)
  have h3 := lookup_ws_last_none (extOf s) c hc hws tcl_tag_map (by decide)
  have h4 := lookup_ws_last_none (extOf s) c hc hws qsys_ipx_tag_map (by decide)
  have h5 := lookup_ws_last_none (extOf s) c hc hws json_tag_map (by decide)
  have h6 := lookup_ws_last_none (extOf s) c hc hws sim_vlog_tag_map (by decide)
  have h7 := lookup_ws_last_none (extOf s) c hc hws sim_vhdl_tag_map (by decide)
  simp only [validateTag]
  rw [if_pos (by rw [h1, h2, h3, h4, h5, h6, h7]; rfl)]

theorem emitSource_fatal (o : Opts) (c : String)
    (he : (validateTag c).isSome = true) :
    emitSource o c = ([], validateTag c) := by
  unfold emitSource
  cases hv : validateTag c with
  | none =>
    rw [hv] at he
    exact Bool.noConfusion he
  | some e => rfl

theorem emitEntry_none_eq (o : Opts) (c : String)
    (hsp : strSplitFirst ':' c = none) (hplus : strStarts c "+" = false) :
    emitEntry o c = emitSource o c := by
  unfold emitEntry
  rw [if_neg (by simp [hplus]), hsp]

theorem emitEntry_some_eq (o : Opts) (c hd tl : String)
    (hsp : strSplitFirst ':' c = some (hd, tl)) (hplus : strStarts c "+" = false) :
    emitEntry o c =
      (if hd = "SI" ∨ hd = "SI_VLOG" then
        (if (lookupTag tl tcl_tag_map).isSome && (o.sim_vlog || o.tcl) then ([tl], none)
         else if o.sim_vlog then (["-F " ++ tl], none)
         else ([], none))
      else if hd = "SI_VHDL" then
        (if (lookupTag tl tcl_tag_map).isSome && (o.sim_vhdl || o.tcl) then ([tl], none)
         else if o.sim_vhdl then (["-F " ++ tl], none)
         else ([], none))
      else if hd = "QI" then
        (if !o.sim && !fileTypeFilter o then
          (["source \"" ++ relPfx o ++ tl ++ "\""], none)
         else ([], none))
      else emitSource o c) := by
  unfold emitEntry
  rw [if_neg (by simp [hplus]), hsp]

theorem emitEntry_fatal (o : Opts) (c : String)
    (hplus : strStarts c "+" = false)
    (hcmd : ∀ hd tl, strSplitFirst ':' c = some (hd, tl) →
      hd ≠ "SI" ∧ hd ≠ "SI_VLOG" ∧ hd ≠ "SI_VHDL" ∧ hd ≠ "QI")
    (he : (validateTag c).isSome = true) :
    emitEntry o c = ([], validateTag c) := by
  cases hsp : strSplitFirst ':' c with
  | none =>
    rw [emitEntry_none_eq o c hsp hplus]
    exact emitSource_fatal o c he
  | some pr =>
    obtain ⟨hd, tl⟩ := pr
    obtain ⟨hA, hB, hC, hD⟩ := hcmd hd tl hsp
    rw [emitEntry_some_eq o c hd tl hsp hplus]
    rw [if_neg (show ¬ (hd = "SI" ∨ hd = "SI_VLOG") from fun h => h.elim hA hB)]
    rw [if_neg hC, if_neg hD]
    exact emitSource_fatal o c he

/-- C9, counterexample: the strip-before-comment trap does not hold for
every line whose path validates.  The line `+x.sv  # c` cooks to
`+x.sv  `, and `+x.sv` has the recognized extension `.sv`, yet emission
does not abort: the `+`-guard of phase 2 skips the entry silently, so the
fatal-unrecognized-extension conclusion fails for this member of the
claim's family. -/
theorem strip_comment_plus_path_skipped :
    validateTag "+x.sv" = none ∧
    lineCooked "+x.sv  # c" = "+x.sv  " ∧
    emitEntry {} "+x.sv  " = ([], none) ∧
    emitCfg {} ["+x.sv  "] =
      (["set THIS_DIR [file dirname [info script]]\n"], none) := by decide

/-- C9, amended: for every manifest line made of a non-directive source
path `p` (not beginning with `+`, not carrying one of the `SI`/`SI_VLOG`/
`SI_VHDL`/`QI` command heads, no `#`, not beginning with whitespace, and
with a recognized extension), nonempty trailing whitespace `w` and an
inline `#` comment, the parser strips before truncating the comment, so
the cooked entry `p ++ w` keeps the trailing whitespace; its extracted
extension is the path's real extension with that whitespace appended,
which matches no table, so validation of the cooked entry yields the
fatal unrecognized-extension diagnostic and phase-2 emission aborts with
it, in every mode. -/
theorem strip_traps_extension_amended (o : Opts) (p w m : List Char)
    (hpne : p ≠ [])
    (hph : isPyWs (p.headD ' ') = false)
    (hphash : '#' ∉ p)
    (hwne : w ≠ [])
    (hwall : ∀ ch ∈ w, isPyWs ch = true)
    (hvalid : validateTag (String.mk p) = none)
    (hplus : p.headD ' ' ≠ '+')
    (hcmd : ∀ hd tl, splitFirst ':' p = some (hd, tl) →
      String.mk hd ≠ "SI" ∧ String.mk hd ≠ "SI_VLOG" ∧
      String.mk hd ≠ "SI_VHDL" ∧ String.mk hd ≠ "QI") :
    lineCooked (String.mk (p ++ w ++ '#' :: m)) = String.mk (p ++ w) ∧
    extOf (String.mk (p ++ w)) = String.mk ((extOf (String.mk p)).toList ++ w) ∧
    validateTag (String.mk (p ++ w)) =
      some ("unrecognized file extension \x27" ++ extOf (String.mk (p ++ w)) ++
        "\x27 (" ++ String.mk (p ++ w) ++ ")") ∧
    emitEntry o (String.mk (p ++ w)) = ([], validateTag (String.mk (p ++ w))) := by
  have hext := extOf_append_ws p w hwall hvalid
  obtain ⟨c, hwl⟩ := Option.isSome_iff_exists.mp (List.getLast?_isSome.mpr hwne)
  have hcw : c ∈ w := mem_of_getLast?_eq hwl
  have hlast : (extOf (String.mk (p ++ w))).toList.getLast? = some c := by
    rw [hext, toList_mk ((extOf (String.mk p)).toList ++ w)]
    rw [List.getLast?_append_of_ne_nil _ hwne]
    exact hwl
  have hv2 := validateTag_ws_last (String.mk (p ++ w)) c hlast (hwall c hcw)
  refine ⟨lineCooked_strip_first p w m hpne hph hphash hwall, hext, hv2, ?_⟩
  have hplus2 : strStarts (String.mk (p ++ w)) "+" = false := by
    unfold strStarts
    rw [toList_mk (p ++ w)]
    cases p with
    | nil => exact absurd rfl hpne
    | cons ph pt =>
      simp only [List.headD_cons] at hplus
      rw [List.cons_append]
      exact isPfx_single_false '+' (ph :: (pt ++ w)) (by
        rw [List.headD_cons]
        exact hplus)
  have hnw : ':' ∉ w := fun hm => absurd (hwall ':' hm) (by decide)
  have hcmd2 : ∀ hd tl, strSplitFirst ':' (String.mk (p ++ w)) = some (hd, tl) →
      hd ≠ "SI" ∧ hd ≠ "SI_VLOG" ∧ hd ≠ "SI_VHDL" ∧ hd ≠ "QI" := by
    intro hd tl hsp
    unfold strSplitFirst at hsp
    rw [toList_mk (p ++ w)] at hsp
    cases hsp0 : splitFirst ':' p with
    | none =>
      have hnp : ':' ∉ p := by
        intro hm
        obtain ⟨ab, hab⟩ := splitFirst_isSome_of_mem ':' p hm
        rw [hab] at hsp0
        exact Option.noConfusion hsp0
      rw [splitFirst_none_of_not_mem ':' (p ++ w) (by
        intro hm
        rcases List.mem_append.mp hm with h | h
        · exact hnp h
        · exact hnw h)] at hsp
      exact Option.noConfusion hsp
    | some pr0 =>
      obtain ⟨hd0, tl0⟩ := pr0
      obtain ⟨hm0, heq0⟩ := splitFirst_eq_some ':' p hd0 tl0 hsp0
      rw [show splitFirst ':' (p ++ w) = some (hd0, tl0 ++ w) from by
        rw [heq0, List.append_assoc, List.cons_append]
        exact splitFirst_append_sep ':' hd0 (tl0 ++ w) hm0] at hsp
      injection hsp with hsp2
      rw [Prod.mk.injEq] at hsp2
      obtain ⟨hhd, _⟩ := hsp2
      obtain ⟨a1, a2, a3, a4⟩ := hcmd hd0 tl0 hsp0
      subst hhd
      exact ⟨a1, a2, a3, a4⟩
  exact emitEntry_fatal o (String.mk (p ++ w)) hplus2 hcmd2 (by rw [hv2]; rfl)

theorem strip_traps_extension_amended_witness :
    validateTag (String.mk "top.sv".toList) = none ∧
    (lineCooked (String.mk ("top.sv".toList ++ "  ".toList ++
        '#' :: " the top module".toList)) =
      String.mk ("top.sv".toList ++ "  ".toList) ∧
     extOf (String.mk ("top.sv".toList ++ "  ".toList)) =
      String.mk ((extOf (String.mk "top.sv".toList)).toList ++ "  ".toList) ∧
     validateTag (String.mk ("top.sv".toList ++ "  ".toList)) =
      some ("unrecognized file extension \x27" ++
        extOf (String.mk ("top.sv".toList ++ "  ".toList)) ++
        "\x27 (" ++ String.mk ("top.sv".toList ++ "  ".toList) ++ ")") ∧
     emitEntry synthOpts (String.mk ("top.sv".toList ++ "  ".toList)) =
      ([], validateTag (String.mk ("top.sv".toList ++ "  ".toList)))) :=
  ⟨by decide,
   strip_traps_extension_amended synthOpts "top.sv".toList "  ".toList
     " the top module".toList
     (by decide) (by decide) (by decide) (by decide) (by decide) (by decide) (by decide)
     (fun hd tl h => Option.noConfusion h)⟩

end RtlSrcConfig
